import Mathlib

/-!
Verification development for the WrdHntr game-session engine.

The definitions below are a shallow embedding of the backend sources
(`backend/app.js`, the Socket.IO server, and `backend/gameLogic.js`).
JavaScript strings are modelled as `List Char`; JS `Map`s (which preserve
insertion order) are modelled as association lists together with small
`mapGet`/`mapSet`/`mapHas`/`mapDelete` operations mirroring `Map.prototype`
semantics; JS numbers holding scores are modelled as `Int` and timestamps
as `Nat`.  `Math.random()` draws inside `generateLetters` are abstracted
into two explicit streams (one for each biased-branch outcome, one for the
index picked from a letter array), so the generator is a deterministic
function of its random source.  Network transport, broadcasts and the
tick timer are elided; the round-end transition fired by the timer is
modelled as the `endGame` state transition.
-/

namespace WrdHntr

/-- Association-list lookup mirroring `Map.prototype.get` (insertion-ordered;
a real JS map holds each key at most once, so first match suffices). -/
def mapGet {K V : Type} [DecidableEq K] : List (K × V) → K → Option V
  | [], _ => none
  | e :: t, k => if e.1 = k then some e.2 else mapGet t k

/-- Mirrors `Map.prototype.has`. -/
def mapHas {K V : Type} [DecidableEq K] (m : List (K × V)) (k : K) : Bool :=
  (mapGet m k).isSome

/-- Mirrors `Map.prototype.set`: updates the value in place if the key is
present (keeping its position, as JS maps do), otherwise appends. -/
def mapSet {K V : Type} [DecidableEq K] : List (K × V) → K → V → List (K × V)
  | [], k, v => [(k, v)]
  | e :: t, k, v => if e.1 = k then (k, v) :: t else e :: mapSet t k v

/-- Mirrors `Map.prototype.delete`. -/
def mapDelete {K V : Type} [DecidableEq K] (m : List (K × V)) (k : K) : List (K × V) :=
  m.filter (fun e => ¬ e.1 = k)

/-- Whitespace-aware trailing trim: removes the maximal whitespace suffix.
Together with a leading `dropWhile` this models `String.prototype.trim`. -/
def dropTrailingWs : List Char → List Char
  | [] => []
  | a :: t =>
    if (dropTrailingWs t).isEmpty then (if a.isWhitespace then [] else [a])
    else a :: dropTrailingWs t

/-- Models `String.prototype.trim`: strips leading and trailing whitespace. -/
def trim (l : List Char) : List Char :=
  dropTrailingWs (l.dropWhile Char.isWhitespace)

/-- Models `word.toUpperCase().trim()` as applied to submitted words in
`submitWord` and `validateWord` (`Char.toUpper` embeds `toUpperCase`). -/
def normalize (w : List Char) : List Char :=
  trim (w.map Char.toUpper)

/-- `SWEDISH_LETTERS.vowels` from gameLogic.js. -/
def swedishVowels : List Char := ['A', 'E', 'I', 'O', 'U', 'Y', 'Å', 'Ä', 'Ö']

/-- `SWEDISH_LETTERS.consonants` from gameLogic.js. -/
def swedishConsonants : List Char :=
  ['B', 'C', 'D', 'F', 'G', 'H', 'J', 'K', 'L', 'M', 'N', 'P', 'R', 'S', 'T', 'V', 'X', 'Z']

/-- `SWEDISH_LETTERS.commonConsonants` from gameLogic.js. -/
def swedishCommonConsonants : List Char := ['N', 'R', 'S', 'T', 'L', 'D', 'G', 'M', 'K']

/-- `SWEDISH_LETTERS.commonVowels` from gameLogic.js. -/
def swedishCommonVowels : List Char := ['A', 'E', 'I', 'O']

/-- The full letter alphabet a generated bag can draw from. -/
def swedishAll : List Char := swedishVowels ++ swedishConsonants

/-- One biased draw: `letters[Math.floor(Math.random() * letters.length)]`,
with the index draw supplied by the random stream (always in range, as the
JS expression is). -/
def pickFrom (l : List Char) (i : Nat) : Char :=
  l.getD (i % l.length) 'A'

/-- Swap of two positions in a list, modelling the destructuring swap
`[letters[i], letters[j]] = [letters[j], letters[i]]`. -/
def swapAt (l : List Char) (i j : Nat) : List Char :=
  match l[i]?, l[j]? with
  | some a, some b => (l.set i b).set j a
  | _, _ => l

/-- The Fisher–Yates loop of `generateLetters`: for `i` from `length-1`
down to `1`, swap position `i` with a random position `j ≤ i`. -/
def fisherYates (l : List Char) (pick : Nat → Nat) : Nat → Nat → List Char
  | 0, _ => l
  | i + 1, k => fisherYates (swapAt l (i + 1) (pick k % (i + 2))) pick i (k + 1)

/-- `generateLetters(count)` from gameLogic.js: a vowel quota of
`Math.floor(count * 0.35)`, biased draws from the common subsets, then an
unbiased shuffle.  `coin n` abstracts the `Math.random() < p` outcome of the
n-th draw and `pick n` its index draw. -/
def generateLetters (count : Nat) (coin : Nat → Bool) (pick : Nat → Nat) : List Char :=
  let vowelCount := count * 35 / 100
  let consonantCount := count - vowelCount
  let vs := (List.range vowelCount).map (fun i =>
    if coin i then pickFrom swedishCommonVowels (pick i)
    else pickFrom swedishVowels (pick i))
  let cs := (List.range consonantCount).map (fun i =>
    if coin (vowelCount + i) then pickFrom swedishCommonConsonants (pick (vowelCount + i))
    else pickFrom swedishConsonants (pick (vowelCount + i)))
  let letters := vs ++ cs
  fisherYates letters pick (letters.length - 1) 0

/-- `letterPool.indexOf(char)` + `splice(index, 1)`: removes the first
occurrence of `c`, or fails if absent. -/
def removeFirst : List Char → Char → Option (List Char)
  | [], _ => none
  | x :: xs, c => if x = c then some xs else (removeFirst xs c).map (fun t => x :: t)

/-- The loop body of `canFormWord`: consume the pool letter by letter. -/
def canFormAux : List Char → List Char → Bool
  | [], _ => true
  | c :: rest, pool =>
    match removeFirst pool c with
    | none => false
    | some pool' => canFormAux rest pool'

/-- `canFormWord(word, availableLetters)` from gameLogic.js: works on a copy
of the pool, removing one matching letter per character of the uppercased
word. -/
def canFormWord (word : List Char) (availableLetters : List Char) : Bool :=
  canFormAux (word.map Char.toUpper) availableLetters

/-- `isValidSwedishWord(word)`: case-insensitive membership in the loaded
word list (the list is passed explicitly; in the source it is module
state loaded once at startup). -/
def isValidSwedishWord (dict : List (List Char)) (word : List Char) : Bool :=
  dict.contains (word.map Char.toUpper)

/-- `validateWord(word, letters, minLength)` from gameLogic.js.  Returns
`none` for `{valid: true}` and `some err` for `{valid: false, error: err}`,
checking the four conditions in source order. -/
def validateWord (dict : List (List Char)) (word : List Char) (letters : List Char)
    (minLength : Nat) : Option String :=
  let upperWord := normalize word
  if upperWord.isEmpty then some "Tomt ord"
  else if upperWord.length < minLength then
    some ("Ordet måste vara minst " ++ toString minLength ++ " bokstäver")
  else if canFormWord upperWord letters = false then some "Ogiltiga bokstäver"
  else if isValidSwedishWord dict upperWord = false then some "Inte ett giltigt svenskt ord"
  else none

/-- `calculateFreeForAllScore(word, secondsElapsed)` from gameLogic.js.
`Math.round` is applied to a value that is already an integer, hence it is
the identity and omitted. -/
def calculateFreeForAllScore (word : List Char) (secondsElapsed : Nat) : Int :=
  let wordLength : Int := word.length
  let timeBonus : Int := max 0 (60 - (secondsElapsed : Int))
  let score := wordLength * timeBonus
  if wordLength > 6 then score + 5 else score

/-- `calculateExclusiveScore(word)`: one point per letter. -/
def calculateExclusiveScore (word : List Char) : Int :=
  word.length

/-- The comparator passed to `possibleWords.sort` in `findPossibleWords`:
length descending, ties by `a.localeCompare(b, 'sv')`.  The locale
comparator `sv` is an external collaborator and is passed as a parameter. -/
def possibleCmp (sv : List Char → List Char → Int) (a b : List Char) : Int :=
  if (b.length : Int) - (a.length : Int) = 0 then sv a b
  else (b.length : Int) - (a.length : Int)

/-- `findPossibleWords(letters, minLength)` from gameLogic.js: scan the
dictionary, keep words of sufficient length that are formable from the
bag, and sort with `possibleCmp` (a stable sort, as ES2019 requires). -/
def findPossibleWords (dict : List (List Char)) (sv : List Char → List Char → Int)
    (letters : List Char) (minLength : Nat) : List (List Char) :=
  let possibleWords := dict.filter (fun word =>
    decide (minLength ≤ word.length) && canFormWord word letters)
  possibleWords.mergeSort (fun a b => decide (possibleCmp sv a b ≤ 0))

/-- Game mode (`'freeforall' | 'exclusive'`). -/
inductive Mode
  | freeforall
  | exclusive
deriving DecidableEq, Repr

/-- Session status (`'waiting' | 'playing' | 'ended'`). -/
inductive Status
  | waiting
  | playing
  | ended
deriving DecidableEq, Repr

/-- One entry of `game.players` (the map key is the socket id). -/
structure PlayerEntry where
  name : List Char
  score : Int
  connected : Bool
deriving DecidableEq, Repr

/-- One entry of `game.claims`.  In exclusive mode the source object has no
`word` field (the map key is the word), hence `word : Option`; free-for-all
entries set it to the claimed word. -/
structure ClaimEntry where
  playerId : List Char
  playerName : List Char
  timestamp : Nat
  score : Int
  word : Option (List Char)
deriving DecidableEq, Repr

/-- The effective word of a ledger entry: `claim.word || word`, where the
fallback `word` is the map key (used by `getGameState` and `endGame`). -/
def claimWord (ke : List Char × ClaimEntry) : List Char :=
  ke.2.word.getD ke.1

/-- The per-session game state (transport-only fields `id` and
`timerInterval` are elided; `id` only keys the registry). -/
structure Game where
  mode : Mode
  letters : List Char
  letterCount : Nat
  minWordLength : Nat
  duration : Nat
  hostId : Option (List Char)
  players : List (List Char × PlayerEntry)
  claims : List (List Char × ClaimEntry)
  playerClaims : List (List Char × List (List Char))
  status : Status
  startTime : Option Nat
deriving DecidableEq, Repr

/-- `MAX_PLAYERS_PER_ROOM` from app.js. -/
def MAX_PLAYERS_PER_ROOM : Nat := 20

/-- `DEFAULT_GAME_DURATION` from app.js. -/
def DEFAULT_GAME_DURATION : Nat := 60

/-- Options object passed to `createGame`. -/
structure GameOptions where
  mode : Option Mode
  letterCount : Option Nat
  minWordLength : Option Nat
  gameDuration : Option Nat
deriving DecidableEq, Repr

/-- JS `options.x || default` for numeric options (`0` is falsy). -/
def natOr (o : Option Nat) (d : Nat) : Nat :=
  match o with
  | some n => if n = 0 then d else n
  | none => d

/-- `createGame(options)` from app.js (the random `id` is elided; the
random streams feed `generateLetters`). -/
def createGame (options : GameOptions) (coin : Nat → Bool) (pick : Nat → Nat) : Game :=
  let letterCount := natOr options.letterCount 15
  { mode := options.mode.getD Mode.freeforall
    letters := generateLetters letterCount coin pick
    letterCount := letterCount
    minWordLength := natOr options.minWordLength 3
    duration := natOr options.gameDuration DEFAULT_GAME_DURATION
    hostId := none
    players := []
    claims := []
    playerClaims := []
    status := Status.waiting
    startTime := none }

/-- Result of `submitWord`: `{success: true, word, score, totalScore}` or
`{success: false, error}`. -/
inductive SubmitResult
  | ok (word : List Char) (score : Int) (totalScore : Int)
  | err (error : String)
deriving DecidableEq, Repr

/-- Result of the `join-game` handler (the broadcast snapshot is elided;
`isHost` is the boolean sent back to the caller). -/
inductive JoinResult
  | ok (isHost : Bool)
  | err (error : String)
deriving DecidableEq, Repr

/-- Result of the `start-game` handler. -/
inductive StartResult
  | ok
  | err (error : String)
deriving DecidableEq, Repr

/-- The `if (!game.playerClaims.has(playerId)) game.playerClaims.set(playerId,
new Set())` step of free-for-all submission: ensure the submitter has a
claim set. -/
def ensureClaimSet (pcs : List (List Char × List (List Char))) (playerId : List Char) :
    List (List Char × List (List Char)) :=
  if mapHas pcs playerId then pcs else mapSet pcs playerId []

/-- The `Exclusive` branch of `submitWord`: check-then-insert on the word
key, crediting the score to the claiming player. -/
def exclusiveClaim (g : Game) (playerId : List Char) (player : PlayerEntry)
    (upperWord : List Char) (elapsed : Nat) : Game × SubmitResult :=
  if mapHas g.claims upperWord then (g, SubmitResult.err "Ordet är redan taget!")
  else
    ({ g with
        claims := mapSet g.claims upperWord
          ⟨playerId, player.name, elapsed, calculateExclusiveScore upperWord, none⟩
        players := mapSet g.players playerId
          { player with score := player.score + calculateExclusiveScore upperWord } },
      SubmitResult.ok upperWord (calculateExclusiveScore upperWord)
        (player.score + calculateExclusiveScore upperWord))

/-- The free-for-all branch of `submitWord`: per-player dedupe via
`playerClaims`, then insert under the `word-playerId` key. -/
def freeForAllClaim (g : Game) (playerId : List Char) (player : PlayerEntry)
    (upperWord : List Char) (elapsed : Nat) : Game × SubmitResult :=
  if upperWord ∈ (mapGet (ensureClaimSet g.playerClaims playerId) playerId).getD [] then
    ({ g with playerClaims := ensureClaimSet g.playerClaims playerId },
      SubmitResult.err "Du har redan använt detta ord!")
  else
    ({ g with
        playerClaims := mapSet (ensureClaimSet g.playerClaims playerId) playerId
          ((mapGet (ensureClaimSet g.playerClaims playerId) playerId).getD [] ++ [upperWord])
        claims := mapSet g.claims (upperWord ++ '-' :: playerId)
          ⟨playerId, player.name, elapsed, calculateFreeForAllScore upperWord elapsed,
            some upperWord⟩
        players := mapSet g.players playerId
          { player with score := player.score + calculateFreeForAllScore upperWord elapsed } },
      SubmitResult.ok upperWord (calculateFreeForAllScore upperWord elapsed)
        (player.score + calculateFreeForAllScore upperWord elapsed))

/-- `submitWord(game, playerId, word)` from app.js.  `now` stands for
`Date.now()` in milliseconds; the elapsed seconds are
`Math.floor((now - game.startTime) / 1000)`; the normalized word
`word.toUpperCase().trim()` is passed to validation and both mode
branches. -/
def submitWord (dict : List (List Char)) (g : Game) (playerId : List Char)
    (word : List Char) (now : Nat) : Game × SubmitResult :=
  match mapGet g.players playerId with
  | none => (g, SubmitResult.err "Spelet är inte aktivt")
  | some player =>
    if g.status ≠ Status.playing then (g, SubmitResult.err "Spelet är inte aktivt")
    else
      match validateWord dict (normalize word) g.letters g.minWordLength with
      | some e => (g, SubmitResult.err e)
      | none =>
        if g.mode = Mode.exclusive then
          exclusiveClaim g playerId player (normalize word) ((now - g.startTime.getD 0) / 1000)
        else
          freeForAllClaim g playerId player (normalize word) ((now - g.startTime.getD 0) / 1000)

/-- The reconnect-or-new-player step of the `join-game` handler: rebind the
first disconnected exact-name match to the new socket id (deleting the old
key and appending, as `Map.delete` + `Map.set` do), otherwise append a
fresh player with score 0. -/
def rebindOrAdd (g : Game) (sid : List Char) (playerName : List Char) : Game :=
  match g.players.find? (fun e => decide (e.2.name = playerName) && !e.2.connected) with
  | some e =>
    { g with players := mapDelete g.players e.1 ++ [(sid, { e.2 with connected := true })] }
  | none =>
    { g with players := g.players ++ [(sid, ⟨playerName, 0, true⟩)] }

/-- `if (game.hostId === null) game.hostId = socket.id`: first joiner (or
first joiner ever) becomes host. -/
def assignHost (g : Game) (sid : List Char) : Game :=
  if g.hostId = none then { g with hostId := some sid } else g

/-- The `join-game` handler body from app.js, after the registry lookup:
ended/full checks, idempotent re-join of the same socket, the
case-insensitive connected-name check, the reconnect scan (exact name,
disconnected), else a fresh player; finally first-join host assignment. -/
def joinGame (g : Game) (sid : List Char) (playerName : List Char) : Game × JoinResult :=
  if g.status = Status.ended then (g, JoinResult.err "Spelet är avslutat")
  else if MAX_PLAYERS_PER_ROOM ≤ g.players.length then (g, JoinResult.err "Spelet är fullt")
  else if mapHas g.players sid then (g, JoinResult.ok (decide (g.hostId = some sid)))
  else if g.players.any (fun e =>
      decide (e.2.name.map Char.toLower = playerName.map Char.toLower) && e.2.connected) then
    (g, JoinResult.err "Namnet är redan taget")
  else
    (assignHost (rebindOrAdd g sid playerName) sid,
      JoinResult.ok (decide ((assignHost (rebindOrAdd g sid playerName) sid).hostId = some sid)))

/-- The `join-game` handler including the `games.get(gameId)` lookup. -/
def handleJoin (og : Option Game) (sid : List Char) (playerName : List Char) :
    Option Game × JoinResult :=
  match og with
  | none => (none, JoinResult.err "Spelet hittades inte")
  | some g =>
    let r := joinGame g sid playerName
    (some r.1, r.2)

/-- The `start-game` handler from app.js, after the registry lookup: host
check, status check, min-players check, then `startGameTimer` (which sets
`startTime = Date.now()` and `status = 'playing'`). -/
def startGame (g : Game) (sid : List Char) (now : Nat) : Game × StartResult :=
  if g.hostId ≠ some sid then (g, StartResult.err "Endast värden kan starta spelet")
  else if g.status ≠ Status.waiting then (g, StartResult.err "Spelet har redan startat")
  else if g.players.length < 1 then (g, StartResult.err "Minst en spelare behövs")
  else ({ g with startTime := some now, status := Status.playing }, StartResult.ok)

/-- The host-transfer step of the `disconnect` handler: if the departing
socket was host, hand the host role to the first connected player in the
player table's iteration order; if no one is connected, the loop finds
nothing and the host id is left untouched. -/
def transferHost (g : Game) (sid : List Char) : Game :=
  if g.hostId = some sid then
    match g.players.find? (fun e => e.2.connected) with
    | some e => { g with hostId := some e.1 }
    | none => g
  else g

/-- The `disconnect` handler from app.js: mark the player disconnected,
then perform host transfer if needed. -/
def disconnectPlayer (g : Game) (sid : List Char) : Game :=
  match mapGet g.players sid with
  | none => g
  | some player =>
    transferHost
      { g with players := mapSet g.players sid { player with connected := false } } sid

/-- `endGame(game)` from app.js: stop the timer and set status to ended
(rankings and the possible-words broadcast are derived views). -/
def endGame (g : Game) : Game :=
  { g with status := Status.ended }

/-- Sum of ledger scores credited to a display name. -/
def claimsSumFor (claims : List (List Char × ClaimEntry)) (name : List Char) : Int :=
  ((claims.filter (fun ke => decide (ke.2.playerName = name))).map (fun ke => ke.2.score)).sum

/-- Sum of ledger scores attached to a transport (socket) id. -/
def claimsSumForId (claims : List (List Char × ClaimEntry)) (pid : List Char) : Int :=
  ((claims.filter (fun ke => decide (ke.2.playerId = pid))).map (fun ke => ke.2.score)).sum

/-- The session states reachable through the engine's operations, starting
from `createGame`.  The dictionary is fixed for the process lifetime.  The
`timerEnd` step is the round-end transition fired by the countdown timer,
which only runs while the game is playing. -/
inductive Reach (dict : List (List Char)) : Game → Prop
  | create (options : GameOptions) (coin : Nat → Bool) (pick : Nat → Nat) :
      Reach dict (createGame options coin pick)
  | join {g : Game} (sid playerName : List Char) :
      Reach dict g → Reach dict (joinGame g sid playerName).1
  | start {g : Game} (sid : List Char) (now : Nat) :
      Reach dict g → Reach dict (startGame g sid now).1
  | submit {g : Game} (playerId word : List Char) (now : Nat) :
      Reach dict g → Reach dict (submitWord dict g playerId word now).1
  | disconnect {g : Game} (sid : List Char) :
      Reach dict g → Reach dict (disconnectPlayer g sid)
  | timerEnd {g : Game} :
      Reach dict g → g.status = Status.playing → Reach dict (endGame g)

/-- The inductive session invariant maintained by every operation: player
ids and claim keys are unique, display names are unique across the player
table, the bag only holds Swedish letters, every ledger entry is credited
to a present player's name, scores book against the ledger by name, and
ledger entries/per-player claim sets hold normalized, validated words
(free-for-all keys carrying their `word-playerId` shape). -/
structure Inv (dict : List (List Char)) (g : Game) : Prop where
  playersNodup : (g.players.map Prod.fst).Nodup
  namesUnique : g.players.Pairwise (fun a b => a.2.name ≠ b.2.name)
  claimsNodup : (g.claims.map Prod.fst).Nodup
  lettersAlpha : ∀ c ∈ g.letters, c ∈ swedishAll
  claimOwner : ∀ ke ∈ g.claims, ∃ e ∈ g.players, e.2.name = ke.2.playerName
  scoreSum : ∀ e ∈ g.players, e.2.score = claimsSumFor g.claims e.2.name
  exclClaims : g.mode = Mode.exclusive → ∀ ke ∈ g.claims,
    ke.2.word = none ∧ normalize ke.1 = ke.1 ∧
    validateWord dict ke.1 g.letters g.minWordLength = none
  ffaClaims : g.mode = Mode.freeforall → ∀ ke ∈ g.claims, ∃ w,
    ke.2.word = some w ∧ ke.1 = w ++ '-' :: ke.2.playerId ∧ normalize w = w ∧
    validateWord dict w g.letters g.minWordLength = none ∧
    w ∈ (mapGet g.playerClaims ke.2.playerId).getD []
  pcWords : ∀ pw ∈ g.playerClaims, ∀ w ∈ pw.2, normalize w = w ∧
    validateWord dict w g.letters g.minWordLength = none

/-! ### Concrete executions used as witnesses and counterexamples

A tiny dictionary containing only the word "ANN", a four-letter game
(constant random streams produce the bag `N,N,N,A`), and short operation
chains exercising joins, reconnects, claims and disconnects. -/

/-- A one-word dictionary for concrete runs. -/
def exDict : List (List Char) := [['A', 'N', 'N']]

/-- Free-for-all options: 4 letters, min length 3, 60 seconds. -/
def exOptsF : GameOptions := ⟨some Mode.freeforall, some 4, some 3, some 60⟩

/-- Exclusive options: 4 letters, min length 3, 60 seconds. -/
def exOptsE : GameOptions := ⟨some Mode.exclusive, some 4, some 3, some 60⟩

/-- A constant branch stream for `generateLetters`. -/
def exCoin : Nat → Bool := fun _ => true

/-- A constant index stream for `generateLetters`. -/
def exPick : Nat → Nat := fun _ => 0

/-- Free-for-all run: create. -/
def exA0 : Game := createGame exOptsF exCoin exPick

/-- Alva joins on socket `s1`. -/
def exA1 : Game := (joinGame exA0 ['s', '1'] ['A', 'l', 'v', 'a']).1

/-- The host starts the round at time 0. -/
def exA2 : Game := (startGame exA1 ['s', '1'] 0).1

/-- Alva claims "ANN" ten seconds in. -/
def exA3 : Game := (submitWord exDict exA2 ['s', '1'] ['A', 'N', 'N'] 10000).1

/-- Alva disconnects. -/
def exA4 : Game := disconnectPlayer exA3 ['s', '1']

/-- Alva rejoins on a fresh socket `s2`. -/
def exA5 : Game := (joinGame exA4 ['s', '2'] ['A', 'l', 'v', 'a']).1

/-- Exclusive run: create. -/
def exB0 : Game := createGame exOptsE exCoin exPick

/-- Alva joins on socket `s1` (becoming host). -/
def exB1 : Game := (joinGame exB0 ['s', '1'] ['A', 'l', 'v', 'a']).1

/-- Bob joins on socket `s2`. -/
def exB2 : Game := (joinGame exB1 ['s', '2'] ['B', 'o', 'b']).1

/-- Alva (host) starts the round at time 0. -/
def exB3 : Game := (startGame exB2 ['s', '1'] 0).1

/-- Alva claims "ANN". -/
def exB4 : Game := (submitWord exDict exB3 ['s', '1'] ['A', 'N', 'N'] 10000).1

/-- Free-for-all run with two players: create. -/
def exC0 : Game := createGame exOptsF exCoin exPick

/-- Alva joins on socket `s1` (becoming host). -/
def exC1 : Game := (joinGame exC0 ['s', '1'] ['A', 'l', 'v', 'a']).1

/-- Bob joins on socket `s2`. -/
def exC2 : Game := (joinGame exC1 ['s', '2'] ['B', 'o', 'b']).1

/-- Alva (host) starts the round at time 0. -/
def exC3 : Game := (startGame exC2 ['s', '1'] 0).1

/-- Alva claims "ANN" ten seconds in. -/
def exC4 : Game := (submitWord exDict exC3 ['s', '1'] ['A', 'N', 'N'] 10000).1

/-- Bob claims the same word "ANN" twenty seconds in. -/
def exC5 : Game := (submitWord exDict exC4 ['s', '2'] ['A', 'N', 'N'] 20000).1

/-- Host-unset run: create a free-for-all game. -/
def exD0 : Game := createGame exOptsF exCoin exPick

/-- Alva joins on socket `s1` (becoming host). -/
def exD1 : Game := (joinGame exD0 ['s', '1'] ['A', 'l', 'v', 'a']).1

/-- The sole (host) player disconnects. -/
def exD2 : Game := disconnectPlayer exD1 ['s', '1']

/-- Host-transfer run: create. -/
def exE0 : Game := createGame exOptsF exCoin exPick

/-- P1 joins on socket `s1` (becoming host). -/
def exE1 : Game := (joinGame exE0 ['s', '1'] ['P', '1']).1

/-- P2 joins on socket `s2`. -/
def exE2 : Game := (joinGame exE1 ['s', '2'] ['P', '2']).1

/-- P3 joins on socket `s3`. -/
def exE3 : Game := (joinGame exE2 ['s', '3'] ['P', '3']).1

/-- P2 disconnects. -/
def exE4 : Game := disconnectPlayer exE3 ['s', '2']

/-! ### Association-list map lemmas -/

theorem mem_of_mapGet_eq_some {K V : Type} [DecidableEq K] {m : List (K × V)} {k : K} {v : V}
    (h : mapGet m k = some v) : (k, v) ∈ m := by
  induction m with
  | nil => cases h
  | cons e t ih =>
    unfold mapGet at h
    by_cases hk : e.1 = k
    · rw [if_pos hk] at h
      injection h with h
      subst h
      exact List.mem_cons.mpr (Or.inl (by rw [← hk]))
    · rw [if_neg hk] at h
      exact List.mem_cons.mpr (Or.inr (ih h))

theorem mapGet_eq_none_iff {K V : Type} [DecidableEq K] {m : List (K × V)} {k : K} :
    mapGet m k = none ↔ k ∉ m.map Prod.fst := by
  induction m with
  | nil => simp [mapGet]
  | cons e t ih =>
    unfold mapGet
    by_cases hk : e.1 = k
    · simp [hk]
    · rw [if_neg hk, ih]
      constructor
      · intro hn
        simp only [List.map_cons, List.mem_cons, not_or]
        exact ⟨fun hc => hk hc.symm, hn⟩
      · intro hn
        simp only [List.map_cons, List.mem_cons, not_or] at hn
        exact hn.2

theorem mapHas_false_iff {K V : Type} [DecidableEq K] {m : List (K × V)} {k : K} :
    mapHas m k = false ↔ k ∉ m.map Prod.fst := by
  unfold mapHas
  rw [← mapGet_eq_none_iff]
  cases mapGet m k <;> simp

theorem mapHas_true_iff {K V : Type} [DecidableEq K] {m : List (K × V)} {k : K} :
    mapHas m k = true ↔ k ∈ m.map Prod.fst := by
  rw [← Bool.not_eq_false, not_iff_comm, mapHas_false_iff]

theorem mapHas_of_mem {K V : Type} [DecidableEq K] {m : List (K × V)} {k : K} {v : V}
    (h : (k, v) ∈ m) : mapHas m k = true := by
  rw [mapHas_true_iff, List.mem_map]
  exact ⟨(k, v), h, rfl⟩

theorem mapSet_of_not_has {K V : Type} [DecidableEq K] {m : List (K × V)} {k : K} {v : V}
    (h : mapHas m k = false) : mapSet m k v = m ++ [(k, v)] := by
  induction m with
  | nil => rfl
  | cons e t ih =>
    rw [mapHas_false_iff] at h
    simp only [List.map_cons, List.mem_cons, not_or] at h
    unfold mapSet
    rw [if_neg (fun hc => h.1 hc.symm), ih (mapHas_false_iff.mpr h.2)]
    simp

theorem mapSet_decomp_of_get {K V : Type} [DecidableEq K] {m : List (K × V)} {k : K} {p : V}
    (v : V) (h : mapGet m k = some p) :
    ∃ l1 l2, m = l1 ++ (k, p) :: l2 ∧ mapSet m k v = l1 ++ (k, v) :: l2 ∧
      k ∉ l1.map Prod.fst := by
  induction m with
  | nil => cases h
  | cons e t ih =>
    unfold mapGet at h
    unfold mapSet
    by_cases hk : e.1 = k
    · rw [if_pos hk] at h
      cases h
      refine ⟨[], t, ?_, ?_, ?_⟩
      · simp [← hk]
      · simp [hk]
      · simp
    · rw [if_neg hk] at h
      obtain ⟨l1, l2, h1, h2, h3⟩ := ih h
      refine ⟨e :: l1, l2, ?_, ?_, ?_⟩
      · simp [h1]
      · rw [if_neg hk, h2]
        simp
      · simp only [List.map_cons, List.mem_cons, not_or]
        exact ⟨fun hc => hk hc.symm, h3⟩

theorem key_eq_of_mem_key_nodup {K V : Type} [DecidableEq K] {m : List (K × V)} {k : K} {a b : V}
    (ha : (k, a) ∈ m) (hb : (k, b) ∈ m) (hnd : (m.map Prod.fst).Nodup) : a = b := by
  induction m with
  | nil => cases ha
  | cons e t ih =>
    simp only [List.map_cons, List.nodup_cons] at hnd
    rcases List.mem_cons.mp ha with h1 | h1
    · rcases List.mem_cons.mp hb with h2 | h2
      · rw [← h1] at h2
        exact ((Prod.mk.injEq _ _ _ _).mp h2).2.symm
      · exact absurd (List.mem_map.mpr ⟨(k, b), h2, by rw [← h1]⟩) hnd.1
    · rcases List.mem_cons.mp hb with h2 | h2
      · exact absurd (List.mem_map.mpr ⟨(k, a), h1, by rw [← h2]⟩) hnd.1
      · exact ih h1 h2 hnd.2

theorem mapGet_mapSet_self {K V : Type} [DecidableEq K] {m : List (K × V)} {k : K} {v : V} :
    mapGet (mapSet m k v) k = some v := by
  induction m with
  | nil => simp [mapSet, mapGet]
  | cons e t ih =>
    unfold mapSet
    by_cases hk : e.1 = k
    · rw [if_pos hk]
      simp [mapGet]
    · rw [if_neg hk]
      unfold mapGet
      rw [if_neg hk]
      exact ih

theorem mapGet_mapSet_ne {K V : Type} [DecidableEq K] {m : List (K × V)} {k k' : K} {v : V}
    (h : k' ≠ k) : mapGet (mapSet m k v) k' = mapGet m k' := by
  induction m with
  | nil =>
    simp only [mapSet, mapGet]
    rw [if_neg (fun hc : k = k' => h hc.symm)]
  | cons e t ih =>
    unfold mapSet
    by_cases hk : e.1 = k
    · rw [if_pos hk]
      unfold mapGet
      rw [if_neg (fun hc : k = k' => h hc.symm), if_neg (by rw [hk]; exact fun hc => h hc.symm)]
    · rw [if_neg hk]
      unfold mapGet
      by_cases hk' : e.1 = k'
      · rw [if_pos hk', if_pos hk']
      · rw [if_neg hk', if_neg hk']
        exact ih

theorem mapSet_keys_of_get {K V : Type} [DecidableEq K] {m : List (K × V)} {k : K} {p v : V}
    (h : mapGet m k = some p) :
    (mapSet m k v).map Prod.fst = m.map Prod.fst := by
  obtain ⟨l1, l2, h1, h2, _⟩ := mapSet_decomp_of_get v h
  rw [h2, h1]
  simp

theorem mem_mapDelete_iff {K V : Type} [DecidableEq K] {m : List (K × V)} {k : K}
    {e : K × V} : e ∈ mapDelete m k ↔ e ∈ m ∧ e.1 ≠ k := by
  unfold mapDelete
  rw [List.mem_filter]
  simp

theorem mapDelete_sublist {K V : Type} [DecidableEq K] (m : List (K × V)) (k : K) :
    (mapDelete m k).Sublist m :=
  List.filter_sublist m

/-! ### Character and normalization lemmas -/

theorem char_toUpper_toNat (c : Char) (h : c.toNat ≥ 97 ∧ c.toNat ≤ 122) :
    c.toUpper.toNat = c.toNat - 32 := by
  have hv : (c.toNat - 32).isValidChar := by left; have := h.2; omega
  simp only [Char.toUpper, if_pos h, Char.ofNat, dif_pos hv, Char.ofNatAux]
  rfl

theorem char_toUpper_eq_self (c : Char) (h : ¬ (c.toNat ≥ 97 ∧ c.toNat ≤ 122)) :
    c.toUpper = c := by
  simp only [Char.toUpper, if_neg h]

theorem char_toUpper_idem (c : Char) : c.toUpper.toUpper = c.toUpper := by
  by_cases h : c.toNat ≥ 97 ∧ c.toNat ≤ 122
  · have h2 := char_toUpper_toNat c h
    apply char_toUpper_eq_self
    omega
  · rw [char_toUpper_eq_self c h, char_toUpper_eq_self c h]

theorem char_isWhitespace_toUpper (c : Char) : c.toUpper.isWhitespace = c.isWhitespace := by
  by_cases h : c.toNat ≥ 97 ∧ c.toNat ≤ 122
  · have h2 := char_toUpper_toNat c h
    have hne : ∀ d : Char, d.toNat ≥ 33 → d.isWhitespace = false := by
      intro d hd
      simp only [Char.isWhitespace]
      have h32 : d ≠ ' ' := by intro he; subst he; exact absurd hd (by decide)
      have h9 : d ≠ '\t' := by intro he; subst he; exact absurd hd (by decide)
      have h13 : d ≠ '\x0d' := by intro he; subst he; exact absurd hd (by decide)
      have h10 : d ≠ '\n' := by intro he; subst he; exact absurd hd (by decide)
      simp [h32, h9, h13, h10]
    rw [hne _ (by omega), hne _ (by omega)]
  · rw [char_toUpper_eq_self c h]

theorem map_toUpper_idem (w : List Char) :
    (w.map Char.toUpper).map Char.toUpper = w.map Char.toUpper := by
  rw [List.map_map]
  apply List.map_congr_left
  intro c _
  exact char_toUpper_idem c

theorem dropTrailingWs_map_toUpper (w : List Char) :
    dropTrailingWs (w.map Char.toUpper) = (dropTrailingWs w).map Char.toUpper := by
  induction w with
  | nil => rfl
  | cons a t ih =>
    simp only [List.map_cons]
    unfold dropTrailingWs
    rw [ih]
    cases h : dropTrailingWs t with
    | nil =>
      simp only [List.map_nil, List.isEmpty_nil, char_isWhitespace_toUpper, if_true]
      cases hw : a.isWhitespace <;> simp [hw]
    | cons r rs => simp

theorem dropWhile_map_toUpper (w : List Char) :
    (w.map Char.toUpper).dropWhile Char.isWhitespace =
      (w.dropWhile Char.isWhitespace).map Char.toUpper := by
  rw [List.dropWhile_map]
  have hp : (Char.isWhitespace ∘ Char.toUpper) = Char.isWhitespace := by
    funext c
    exact char_isWhitespace_toUpper c
  rw [hp]

theorem map_toUpper_trim (w : List Char) :
    trim (w.map Char.toUpper) = (trim w).map Char.toUpper := by
  unfold trim
  rw [dropWhile_map_toUpper, dropTrailingWs_map_toUpper]

theorem map_toUpper_normalize (w : List Char) :
    (normalize w).map Char.toUpper = normalize w := by
  unfold normalize
  rw [← map_toUpper_trim, map_toUpper_idem]

theorem dropTrailingWs_isPre (l : List Char) : dropTrailingWs l <+: l := by
  induction l with
  | nil => exact List.prefix_refl _
  | cons a t ih =>
    unfold dropTrailingWs
    cases h : dropTrailingWs t with
    | nil =>
      cases hw : a.isWhitespace <;>
        simp [List.cons_prefix_cons, List.nil_prefix]
    | cons r rs =>
      rw [h] at ih
      simp only [List.isEmpty_cons, if_neg Bool.false_ne_true]
      exact List.cons_prefix_cons.mpr ⟨rfl, ih⟩

theorem dropTrailingWs_idem (l : List Char) :
    dropTrailingWs (dropTrailingWs l) = dropTrailingWs l := by
  induction l with
  | nil => rfl
  | cons a t ih =>
    conv_lhs => rw [dropTrailingWs]
    cases h : dropTrailingWs t with
    | nil =>
      cases hw : a.isWhitespace <;> simp [dropTrailingWs, h, hw]
    | cons r rs =>
      rw [h] at ih
      simp only [List.isEmpty_cons, if_neg Bool.false_ne_true]
      conv_lhs => rw [dropTrailingWs]
      conv_rhs => rw [dropTrailingWs]
      rw [h, ih]

theorem dropWhile_head_false {p : Char → Bool} {l : List Char} {a : Char} {t : List Char}
    (h : l.dropWhile p = a :: t) : p a = false := by
  induction l with
  | nil => simp at h
  | cons b s ih =>
    rw [List.dropWhile_cons] at h
    by_cases hb : p b
    · rw [if_pos hb] at h
      exact ih h
    · rw [if_neg hb] at h
      cases h
      simpa using hb

theorem dropWhile_ws_idem (l : List Char) :
    (l.dropWhile Char.isWhitespace).dropWhile Char.isWhitespace
      = l.dropWhile Char.isWhitespace := by
  cases h : l.dropWhile Char.isWhitespace with
  | nil => rfl
  | cons a t =>
    have ha := dropWhile_head_false h
    rw [List.dropWhile_cons, if_neg (by simp [ha])]

theorem dropWhile_dropTrailingWs (l : List Char)
    (hl : l.dropWhile Char.isWhitespace = l) :
    (dropTrailingWs l).dropWhile Char.isWhitespace = dropTrailingWs l := by
  cases h : dropTrailingWs l with
  | nil => rfl
  | cons a t =>
    have hpre := dropTrailingWs_isPre l
    rw [h] at hpre
    cases l with
    | nil => simp [dropTrailingWs] at h
    | cons b s =>
      have hab : a = b := (List.cons_prefix_cons.mp hpre).1
      have hb : Char.isWhitespace b = false := by
        by_cases hw : Char.isWhitespace b
        · exfalso
          rw [List.dropWhile_cons, if_pos (by simp [hw])] at hl
          have hsub : (List.dropWhile Char.isWhitespace s).Sublist s :=
            List.dropWhile_sublist Char.isWhitespace
          have hlen := hsub.length_le
          rw [hl] at hlen
          simp at hlen
        · simpa using hw
      rw [List.dropWhile_cons, hab, hb]
      simp

theorem trim_normalize (w : List Char) : trim (normalize w) = normalize w := by
  unfold normalize
  unfold trim
  rw [dropWhile_dropTrailingWs _ (dropWhile_ws_idem _), dropTrailingWs_idem]

theorem normalize_idem (w : List Char) : normalize (normalize w) = normalize w := by
  show trim ((normalize w).map Char.toUpper) = normalize w
  rw [map_toUpper_normalize, trim_normalize]

/-! ### Multiset-containment characterization -/

theorem removeFirst_eq_erase (pool : List Char) (c : Char) :
    removeFirst pool c = if c ∈ pool then some (pool.erase c) else none := by
  induction pool with
  | nil => simp [removeFirst]
  | cons x xs ih =>
    unfold removeFirst
    by_cases hx : x = c
    · subst hx
      simp [List.erase_cons]
    · rw [if_neg hx, ih]
      by_cases hc : c ∈ xs
      · have hmem : c ∈ x :: xs := List.mem_cons.mpr (Or.inr hc)
        rw [if_pos hc, if_pos hmem]
        have hxc : (x == c) = false := beq_eq_false_iff_ne.mpr hx
        simp [List.erase_cons, hxc]
      · have hnc : c ∉ x :: xs := by
          simp only [List.mem_cons, not_or]
          exact ⟨fun hcx => hx hcx.symm, hc⟩
        rw [if_neg hc, if_neg hnc]
        rfl

theorem canFormAux_iff (w : List Char) : ∀ pool : List Char,
    canFormAux w pool = true ↔ ∀ c : Char, w.count c ≤ pool.count c := by
  induction w with
  | nil =>
    intro pool
    simp [canFormAux]
  | cons c rest ih =>
    intro pool
    unfold canFormAux
    cases hrf : removeFirst pool c with
    | none =>
      rw [removeFirst_eq_erase] at hrf
      by_cases hc : c ∈ pool
      · rw [if_pos hc] at hrf
        cases hrf
      · simp only [Bool.false_eq_true, false_iff, not_forall, not_le]
        refine ⟨c, ?_⟩
        rw [List.count_eq_zero.mpr hc, List.count_cons]
        simp
    | some pool' =>
      rw [removeFirst_eq_erase] at hrf
      by_cases hc : c ∈ pool
      · rw [if_pos hc] at hrf
        injection hrf with hrf
        subst hrf
        rw [ih (pool.erase c)]
        have hpos : 1 ≤ pool.count c := List.count_pos_iff.mpr hc
        constructor
        · intro h d
          rw [List.count_cons]
          by_cases hd : d = c
          · subst hd
            have hde := h d
            rw [List.count_erase_self] at hde
            simp only [beq_self_eq_true, if_true]
            omega
          · have hde := h d
            rw [List.count_erase_of_ne hd] at hde
            have hne : (c == d) = false := beq_eq_false_iff_ne.mpr (fun hcd => hd hcd.symm)
            rw [hne]
            simpa using hde
        · intro h d
          by_cases hd : d = c
          · subst hd
            have hde := h d
            rw [List.count_cons] at hde
            simp only [beq_self_eq_true, if_true] at hde
            rw [List.count_erase_self]
            omega
          · have hde := h d
            rw [List.count_cons] at hde
            have hne : (c == d) = false := beq_eq_false_iff_ne.mpr (fun hcd => hd hcd.symm)
            rw [hne] at hde
            rw [List.count_erase_of_ne hd]
            simpa using hde
      · rw [if_neg hc] at hrf
        cases hrf

theorem canFormWord_iff (w bag : List Char) :
    canFormWord w bag = true ↔
      ∀ c : Char, (w.map Char.toUpper).count c ≤ bag.count c := by
  unfold canFormWord
  exact canFormAux_iff (w.map Char.toUpper) bag

theorem canFormWord_perm (w : List Char) {bag₁ bag₂ : List Char} (h : bag₁.Perm bag₂) :
    canFormWord w bag₁ = canFormWord w bag₂ := by
  have hiff : canFormWord w bag₁ = true ↔ canFormWord w bag₂ = true := by
    rw [canFormWord_iff, canFormWord_iff]
    constructor
    · intro hall c
      rw [← h.count_eq]
      exact hall c
    · intro hall c
      rw [h.count_eq]
      exact hall c
  cases h1 : canFormWord w bag₁ with
  | true => exact (hiff.mp h1).symm
  | false =>
    cases h2 : canFormWord w bag₂ with
    | true => exact absurd (hiff.mpr h2) (by rw [h1]; exact Bool.false_ne_true)
    | false => rfl

theorem mem_of_canFormWord {w bag : List Char} {c : Char}
    (h : canFormWord w bag = true) (hc : c ∈ w.map Char.toUpper) : c ∈ bag := by
  rw [canFormWord_iff] at h
  have h1 : 1 ≤ (w.map Char.toUpper).count c := List.count_pos_iff.mpr hc
  have := h c
  exact List.count_pos_iff.mp (by omega)

/-! ### validateWord characterization -/

theorem validateWord_eq_none_iff (dict : List (List Char)) (word letters : List Char)
    (m : Nat) :
    validateWord dict word letters m = none ↔
      ((normalize word).isEmpty = false ∧ m ≤ (normalize word).length ∧
       canFormWord (normalize word) letters = true ∧
       isValidSwedishWord dict (normalize word) = true) := by
  unfold validateWord
  by_cases h1 : (normalize word).isEmpty
  · simp [h1]
  · simp only [h1, Bool.false_eq_true, if_false]
    by_cases h2 : (normalize word).length < m
    · simp [h2]
    · simp only [h2, if_false]
      by_cases h3 : canFormWord (normalize word) letters = false
      · simp [h3]
      · simp only [h3, if_false]
        by_cases h4 : isValidSwedishWord dict (normalize word) = false
        · simp [h4]
        · simp only [h4, if_false]
          simp only [Bool.not_eq_false] at h1 h3 h4
          simp [h1, h3, h4]
          omega

theorem mem_dict_of_validateWord {dict : List (List Char)} {w letters : List Char} {m : Nat}
    (hfix : normalize w = w) (h : validateWord dict w letters m = none) : w ∈ dict := by
  rw [validateWord_eq_none_iff] at h
  have hv := h.2.2.2
  unfold isValidSwedishWord at hv
  rw [hfix] at hv
  have hup : w.map Char.toUpper = w := by
    conv_lhs => rw [← hfix]
    rw [map_toUpper_normalize, hfix]
  rw [hup] at hv
  simpa using hv

theorem validateWord_facts {dict : List (List Char)} {w letters : List Char} {m : Nat}
    (hfix : normalize w = w) (h : validateWord dict w letters m = none) :
    w ≠ [] ∧ m ≤ w.length ∧ canFormWord w letters = true := by
  rw [validateWord_eq_none_iff] at h
  rw [hfix] at h
  refine ⟨?_, h.2.1, h.2.2.1⟩
  intro he
  rw [he] at h
  simp at h

theorem not_hyphen_of_valid {dict : List (List Char)} {w letters : List Char} {m : Nat}
    (halpha : ∀ c ∈ letters, c ∈ swedishAll)
    (hfix : normalize w = w) (h : validateWord dict w letters m = none) : '-' ∉ w := by
  intro hmem
  have hform := (validateWord_facts hfix h).2.2
  have hup : w.map Char.toUpper = w := by
    conv_lhs => rw [← hfix]
    rw [map_toUpper_normalize, hfix]
  have hbag : '-' ∈ letters := mem_of_canFormWord hform (by rw [hup]; exact hmem)
  have := halpha '-' hbag
  revert this
  decide

/-! ### generateLetters always draws from the Swedish alphabet -/

theorem pickFrom_mem (l : List Char) (i : Nat) (h : l ≠ []) : pickFrom l i ∈ l := by
  unfold pickFrom
  have hlen : 0 < l.length := List.length_pos.mpr h
  have hlt : i % l.length < l.length := Nat.mod_lt _ hlen
  rw [List.getD_eq_getElem l _ hlt]
  exact List.getElem_mem hlt

theorem swapAt_subset (l : List Char) (i j : Nat) : ∀ x ∈ swapAt l i j, x ∈ l := by
  intro x hx
  unfold swapAt at hx
  cases hi : l[i]? with
  | none => rw [hi] at hx; exact hx
  | some a =>
    cases hj : l[j]? with
    | none => rw [hi, hj] at hx; exact hx
    | some b =>
      rw [hi, hj] at hx
      simp only [] at hx
      rcases List.mem_or_eq_of_mem_set hx with hx2 | hx2
      · rcases List.mem_or_eq_of_mem_set hx2 with hx3 | hx3
        · exact hx3
        · subst hx3
          exact List.getElem?_mem hj
      · subst hx2
        exact List.getElem?_mem hi

theorem fisherYates_subset (pick : Nat → Nat) :
    ∀ (i : Nat) (l : List Char) (k : Nat), ∀ x ∈ fisherYates l pick i k, x ∈ l := by
  intro i
  induction i with
  | zero => intro l k x hx; exact hx
  | succ n ih =>
    intro l k x hx
    unfold fisherYates at hx
    exact swapAt_subset l (n + 1) (pick k % (n + 2)) x (ih _ _ x hx)

theorem generateLetters_mem (count : Nat) (coin : Nat → Bool) (pick : Nat → Nat) :
    ∀ c ∈ generateLetters count coin pick, c ∈ swedishAll := by
  intro c hc
  unfold generateLetters at hc
  have hc2 := fisherYates_subset pick _ _ _ c hc
  rw [List.mem_append] at hc2
  have hcv : ∀ x ∈ swedishCommonVowels, x ∈ swedishAll := by decide
  have hv : ∀ x ∈ swedishVowels, x ∈ swedishAll := by decide
  have hcc : ∀ x ∈ swedishCommonConsonants, x ∈ swedishAll := by decide
  have hcons : ∀ x ∈ swedishConsonants, x ∈ swedishAll := by decide
  rcases hc2 with hvm | hcm
  · rw [List.mem_map] at hvm
    obtain ⟨i, _, hpick⟩ := hvm
    by_cases hcoin : coin i
    · rw [if_pos hcoin] at hpick
      exact hcv _ (hpick ▸ pickFrom_mem _ _ (by decide))
    · rw [if_neg hcoin] at hpick
      exact hv _ (hpick ▸ pickFrom_mem _ _ (by decide))
  · rw [List.mem_map] at hcm
    obtain ⟨i, _, hpick⟩ := hcm
    by_cases hcoin : coin (count * 35 / 100 + i)
    · rw [if_pos hcoin] at hpick
      exact hcc _ (hpick ▸ pickFrom_mem _ _ (by decide))
    · rw [if_neg hcoin] at hpick
      exact hcons _ (hpick ▸ pickFrom_mem _ _ (by decide))

/-! ### Claim C2: the scoring engine -/

/-- C2: the scoring functions are pure and reproduce the fixed formulas
exactly: `FreeForAll(w, t) = len(w) * max(0, 60 - t)` plus a flat `5` when
`len(w) > 6` (the `Math.round` is the identity on integers), and
`Exclusive(w) = len(w)`; in particular `FreeForAll("HUND", 10) = 200`,
`FreeForAll("TESTORD", 0) = 425` and `Exclusive("KATT") = 4`. -/
theorem C2_scoring_engine :
    (∀ (w : List Char) (t : Nat),
      calculateFreeForAllScore w t =
        (w.length : Int) * max 0 (60 - (t : Int)) +
          (if 6 < (w.length : Int) then 5 else 0)) ∧
    (∀ w : List Char, calculateExclusiveScore w = (w.length : Int)) ∧
    calculateFreeForAllScore ['H', 'U', 'N', 'D'] 10 = 200 ∧
    calculateFreeForAllScore ['T', 'E', 'S', 'T', 'O', 'R', 'D'] 0 = 425 ∧
    calculateExclusiveScore ['K', 'A', 'T', 'T'] = 4 := by
  refine ⟨?_, fun w => rfl, by decide, by decide, by decide⟩
  intro w t
  unfold calculateFreeForAllScore
  by_cases h : 6 < (w.length : Int)
  · rw [if_pos h, if_pos h]
  · rw [if_neg h, if_neg h]
    omega

/-! ### Claim C6: multiset containment -/

/-- C6: the multiset-containment check accepts a word iff every character's
count in the (uppercased) word is at most its count in the bag; the result
is invariant under permutations of the bag, so the bag `A,A,B` accepts
`"AA"` but not `"AAA"`.  (The embedding is a pure function: the source
works on a copy `[...availableLetters]`, never mutating the bag.) -/
theorem C6_multiset_containment :
    (∀ w bag : List Char, canFormWord w bag = true ↔
        ∀ c : Char, (w.map Char.toUpper).count c ≤ bag.count c) ∧
    (∀ (w bag₁ bag₂ : List Char), bag₁.Perm bag₂ →
        canFormWord w bag₁ = canFormWord w bag₂) ∧
    canFormWord ['A', 'A'] ['A', 'A', 'B'] = true ∧
    canFormWord ['A', 'A', 'A'] ['A', 'A', 'B'] = false :=
  ⟨canFormWord_iff, fun w _ _ h => canFormWord_perm w h, by decide, by decide⟩

/-- Witness for C6: the permutation-invariance clause applied to the
concrete bags `A,A,B` and `B,A,A`. -/
theorem C6_multiset_containment_witness :
    (['A', 'A', 'B'] : List Char).Perm ['B', 'A', 'A'] ∧
    canFormWord ['A', 'A'] ['A', 'A', 'B'] = canFormWord ['A', 'A'] ['B', 'A', 'A'] := by
  refine ⟨by decide, ?_⟩
  exact C6_multiset_containment.2.1 ['A', 'A'] ['A', 'A', 'B'] ['B', 'A', 'A'] (by decide)

/-! ### Invariant helper lemmas -/

theorem claimsSumFor_append (claims : List (List Char × ClaimEntry))
    (ke : List Char × ClaimEntry) (n : List Char) :
    claimsSumFor (claims ++ [ke]) n =
      claimsSumFor claims n + (if ke.2.playerName = n then ke.2.score else 0) := by
  unfold claimsSumFor
  rw [List.filter_append]
  by_cases h : ke.2.playerName = n
  · simp [h]
  · simp [h]

theorem claimsSumFor_eq_zero {claims : List (List Char × ClaimEntry)} {n : List Char}
    (h : ∀ ke ∈ claims, ke.2.playerName ≠ n) : claimsSumFor claims n = 0 := by
  unfold claimsSumFor
  have hf : claims.filter (fun ke => decide (ke.2.playerName = n)) = [] := by
    rw [List.filter_eq_nil_iff]
    intro ke hke
    simpa using h ke hke
  rw [hf]
  simp

theorem names_ne_of_pairwise {players : List (List Char × PlayerEntry)}
    (h : players.Pairwise (fun a b => a.2.name ≠ b.2.name))
    {a b : List Char × PlayerEntry} (ha : a ∈ players) (hb : b ∈ players) (hne : a ≠ b) :
    a.2.name ≠ b.2.name := by
  have hsym : Symmetric (fun x y : List Char × PlayerEntry => x.2.name ≠ y.2.name) :=
    fun x y hxy he => hxy he.symm
  exact List.Pairwise.forall hsym h ha hb hne

theorem namesUnique_replace {l1 l2 : List (List Char × PlayerEntry)} {k : List Char}
    {p v : PlayerEntry} (hname : v.name = p.name)
    (h : (l1 ++ (k, p) :: l2).Pairwise (fun a b => a.2.name ≠ b.2.name)) :
    (l1 ++ (k, v) :: l2).Pairwise (fun a b => a.2.name ≠ b.2.name) := by
  rw [List.pairwise_append] at h ⊢
  obtain ⟨h1, h2, h3⟩ := h
  rw [List.pairwise_cons] at h2 ⊢
  refine ⟨h1, ⟨?_, h2.2⟩, ?_⟩
  · intro b hb
    show v.name ≠ b.2.name
    rw [hname]
    exact h2.1 b hb
  · intro a ha b hb
    rcases List.mem_cons.mp hb with hb1 | hb2
    · subst hb1
      show a.2.name ≠ v.name
      rw [hname]
      exact h3 a ha (k, p) (List.mem_cons_self _ _)
    · exact h3 a ha b (List.mem_cons.mpr (Or.inr hb2))

theorem append_hyphen_inj {w1 w2 p1 p2 : List Char} (h1 : '-' ∉ w1) (h2 : '-' ∉ w2)
    (h : w1 ++ '-' :: p1 = w2 ++ '-' :: p2) : w1 = w2 ∧ p1 = p2 := by
  induction w1 generalizing w2 with
  | nil =>
    cases w2 with
    | nil => simpa using h
    | cons b t =>
      exfalso
      simp only [List.nil_append, List.cons_append, List.cons.injEq] at h
      have hb : b = '-' := h.1.symm
      subst hb
      exact h2 (List.mem_cons_self _ _)
  | cons a s ih =>
    cases w2 with
    | nil =>
      exfalso
      simp only [List.cons_append, List.nil_append, List.cons.injEq] at h
      have ha : a = '-' := h.1
      subst ha
      exact h1 (List.mem_cons_self _ _)
    | cons b t =>
      simp only [List.cons_append, List.cons.injEq] at h
      have hrec := ih (fun hm => h1 (List.mem_cons_of_mem a hm))
        (fun hm => h2 (List.mem_cons_of_mem b hm)) h.2
      refine ⟨?_, hrec.2⟩
      rw [h.1, hrec.1]

/-! ### The invariant is preserved by every operation -/

theorem inv_createGame (dict : List (List Char)) (options : GameOptions)
    (coin : Nat → Bool) (pick : Nat → Nat) : Inv dict (createGame options coin pick) := by
  have hp : (createGame options coin pick).players = [] := rfl
  have hc : (createGame options coin pick).claims = [] := rfl
  have hpc : (createGame options coin pick).playerClaims = [] := rfl
  have hl : (createGame options coin pick).letters =
      generateLetters (natOr options.letterCount 15) coin pick := rfl
  refine ⟨?_, ?_, ?_, ?_, ?_, ?_, ?_, ?_, ?_⟩
  · rw [hp]; exact List.nodup_nil
  · rw [hp]; exact List.Pairwise.nil
  · rw [hc]; exact List.nodup_nil
  · rw [hl]; exact generateLetters_mem _ _ _
  · rw [hc]; intro ke hke; cases hke
  · rw [hp]; intro e he; cases he
  · rw [hc]; intro _ ke hke; cases hke
  · rw [hc]; intro _ ke hke; cases hke
  · rw [hpc]; intro pw hpw; cases hpw

theorem inv_startGame (dict : List (List Char)) (g : Game) (sid : List Char) (now : Nat)
    (h : Inv dict g) : Inv dict (startGame g sid now).1 := by
  unfold startGame
  by_cases h1 : g.hostId ≠ some sid
  · rw [if_pos h1]
    exact h
  · rw [if_neg h1]
    by_cases h2 : g.status ≠ Status.waiting
    · rw [if_pos h2]
      exact h
    · rw [if_neg h2]
      by_cases h3 : g.players.length < 1
      · rw [if_pos h3]
        exact h
      · rw [if_neg h3]
        exact ⟨h.playersNodup, h.namesUnique, h.claimsNodup, h.lettersAlpha, h.claimOwner,
          h.scoreSum, h.exclClaims, h.ffaClaims, h.pcWords⟩

theorem inv_endGame (dict : List (List Char)) (g : Game) (h : Inv dict g) :
    Inv dict (endGame g) :=
  ⟨h.playersNodup, h.namesUnique, h.claimsNodup, h.lettersAlpha, h.claimOwner,
    h.scoreSum, h.exclClaims, h.ffaClaims, h.pcWords⟩

theorem inv_transferHost (dict : List (List Char)) (g : Game) (sid : List Char)
    (h : Inv dict g) : Inv dict (transferHost g sid) := by
  unfold transferHost
  by_cases h1 : g.hostId = some sid
  · rw [if_pos h1]
    cases hf : g.players.find? (fun e => e.2.connected) with
    | none => exact h
    | some e =>
      exact ⟨h.playersNodup, h.namesUnique, h.claimsNodup, h.lettersAlpha, h.claimOwner,
        h.scoreSum, h.exclClaims, h.ffaClaims, h.pcWords⟩
  · rw [if_neg h1]
    exact h

theorem inv_markDisconnected (dict : List (List Char)) (g : Game) (sid : List Char)
    {player : PlayerEntry} (hget : mapGet g.players sid = some player)
    (h : Inv dict g) : Inv dict { g with
      players := mapSet g.players sid { player with connected := false } } := by
  obtain ⟨l1, l2, hdec, hset, hnotin⟩ :=
    mapSet_decomp_of_get { player with connected := false } hget
  have hmem : (sid, player) ∈ g.players := mem_of_mapGet_eq_some hget
  refine ⟨?_, ?_, h.claimsNodup, h.lettersAlpha, ?_, ?_, h.exclClaims, h.ffaClaims,
    h.pcWords⟩
  · show ((mapSet g.players sid _).map Prod.fst).Nodup
    rw [mapSet_keys_of_get hget]
    exact h.playersNodup
  · show (mapSet g.players sid _).Pairwise _
    rw [hset]
    have hnu : (l1 ++ (sid, player) :: l2).Pairwise (fun a b => a.2.name ≠ b.2.name) := by
      rw [← hdec]
      exact h.namesUnique
    exact namesUnique_replace (p := player) (v := { player with connected := false }) rfl hnu
  · intro ke hke
    obtain ⟨e, he, hename⟩ := h.claimOwner ke hke
    show ∃ x ∈ mapSet g.players sid _, x.2.name = ke.2.playerName
    rw [hset]
    rw [hdec] at he
    rcases List.mem_append.mp he with he1 | he1
    · exact ⟨e, List.mem_append.mpr (Or.inl he1), hename⟩
    · rcases List.mem_cons.mp he1 with he2 | he2
      · refine ⟨(sid, { player with connected := false }), ?_, ?_⟩
        · exact List.mem_append.mpr (Or.inr (List.mem_cons_self _ _))
        · rw [← hename, he2]
      · exact ⟨e, List.mem_append.mpr (Or.inr (List.mem_cons.mpr (Or.inr he2))), hename⟩
  · intro e he
    show e.2.score = claimsSumFor g.claims e.2.name
    rw [hset] at he
    rcases List.mem_append.mp he with he1 | he1
    · refine h.scoreSum e ?_
      rw [hdec]
      exact List.mem_append.mpr (Or.inl he1)
    · rcases List.mem_cons.mp he1 with he2 | he2
      · subst he2
        exact h.scoreSum (sid, player) hmem
      · refine h.scoreSum e ?_
        rw [hdec]
        exact List.mem_append.mpr (Or.inr (List.mem_cons.mpr (Or.inr he2)))

theorem inv_assignHost (dict : List (List Char)) (g : Game) (sid : List Char)
    (h : Inv dict g) : Inv dict (assignHost g sid) := by
  unfold assignHost
  by_cases h1 : g.hostId = none
  · rw [if_pos h1]
    exact ⟨h.playersNodup, h.namesUnique, h.claimsNodup, h.lettersAlpha, h.claimOwner,
      h.scoreSum, h.exclClaims, h.ffaClaims, h.pcWords⟩
  · rw [if_neg h1]
    exact h

theorem inv_rebindOrAdd (dict : List (List Char)) (g : Game) (sid playerName : List Char)
    (hfresh : mapHas g.players sid = false)
    (hclash : g.players.any (fun e =>
      decide (e.2.name.map Char.toLower = playerName.map Char.toLower) && e.2.connected)
        = false)
    (h : Inv dict g) : Inv dict (rebindOrAdd g sid playerName) := by
  have hsid : sid ∉ g.players.map Prod.fst := mapHas_false_iff.mp hfresh
  have hclash2 := List.any_eq_false.mp hclash
  unfold rebindOrAdd
  cases hf : g.players.find? (fun e => decide (e.2.name = playerName) && !e.2.connected) with
  | some e =>
    have hmem : e ∈ g.players := List.mem_of_find?_eq_some hf
    have hpred := List.find?_some hf
    simp only [Bool.and_eq_true, decide_eq_true_eq, Bool.not_eq_true'] at hpred
    have hkeysub : List.Sublist ((mapDelete g.players e.1).map Prod.fst)
        (g.players.map Prod.fst) :=
      List.Sublist.map Prod.fst (mapDelete_sublist g.players e.1)
    refine ⟨?_, ?_, h.claimsNodup, h.lettersAlpha, ?_, ?_, h.exclClaims, h.ffaClaims,
      h.pcWords⟩
    · show ((mapDelete g.players e.1 ++ [(sid, _)]).map Prod.fst).Nodup
      rw [List.map_append]
      rw [List.nodup_append]
      refine ⟨hkeysub.nodup h.playersNodup, by simp, ?_⟩
      intro x hx
      simp only [List.map_cons, List.map_nil, List.mem_singleton]
      intro hxs
      subst hxs
      exact hsid (hkeysub.mem hx)
    · show (mapDelete g.players e.1 ++ [(sid, _)]).Pairwise _
      rw [List.pairwise_append]
      refine ⟨List.Pairwise.sublist (mapDelete_sublist g.players e.1) h.namesUnique,
        by simp, ?_⟩
      intro a ha b hb
      rcases List.mem_singleton.mp hb with rfl
      show a.2.name ≠ e.2.name
      have hamem : a ∈ g.players := (mem_mapDelete_iff.mp ha).1
      have hane : a.1 ≠ e.1 := (mem_mapDelete_iff.mp ha).2
      exact names_ne_of_pairwise h.namesUnique hamem hmem (fun hae => hane (by rw [hae]))
    · intro ke hke
      obtain ⟨x, hx, hxname⟩ := h.claimOwner ke hke
      show ∃ y ∈ mapDelete g.players e.1 ++ [(sid, _)], y.2.name = ke.2.playerName
      by_cases hxe : x.1 = e.1
      · have hx2 : x.2 = e.2 := by
          rcases x with ⟨x1, x2⟩
          rcases e with ⟨e1, e2⟩
          simp only at hxe
          subst hxe
          exact key_eq_of_mem_key_nodup hx hmem h.playersNodup
        refine ⟨(sid, { e.2 with connected := true }), ?_, ?_⟩
        · exact List.mem_append.mpr (Or.inr (List.mem_singleton.mpr rfl))
        · show e.2.name = ke.2.playerName
          rw [← hx2, hxname]
      · exact ⟨x, List.mem_append.mpr (Or.inl (mem_mapDelete_iff.mpr ⟨hx, hxe⟩)), hxname⟩
    · intro x hx
      show x.2.score = claimsSumFor g.claims x.2.name
      rcases List.mem_append.mp hx with hx1 | hx1
      · exact h.scoreSum x (mem_mapDelete_iff.mp hx1).1
      · rcases List.mem_singleton.mp hx1 with rfl
        exact h.scoreSum e hmem
  | none =>
    have hnone := List.find?_eq_none.mp hf
    have hnamefresh : ∀ x ∈ g.players, x.2.name ≠ playerName := by
      intro x hx hxn
      have hconn : x.2.connected = true := by
        have := hnone x hx
        simp only [Bool.and_eq_true, decide_eq_true_eq, Bool.not_eq_true'] at this
        rcases Bool.eq_false_or_eq_true x.2.connected with hc | hc
        · exact hc
        · exact absurd ⟨hxn, hc⟩ this
      have hlow : List.map Char.toLower x.2.name = List.map Char.toLower playerName := by
        rw [hxn]
      have hpx : (decide (List.map Char.toLower x.2.name = List.map Char.toLower playerName)
          && x.2.connected) = true := by
        rw [hlow, hconn]
        simp
      exact hclash2 x hx hpx
    refine ⟨?_, ?_, h.claimsNodup, h.lettersAlpha, ?_, ?_, h.exclClaims, h.ffaClaims,
      h.pcWords⟩
    · show ((g.players ++ [(sid, _)]).map Prod.fst).Nodup
      rw [List.map_append, List.nodup_append]
      refine ⟨h.playersNodup, by simp, ?_⟩
      intro x hx
      simp only [List.map_cons, List.map_nil, List.mem_singleton]
      intro hxs
      subst hxs
      exact hsid hx
    · show (g.players ++
          [(sid, ({ name := playerName, score := 0, connected := true } : PlayerEntry))]
            ).Pairwise (fun a b => a.2.name ≠ b.2.name)
      rw [List.pairwise_append]
      refine ⟨h.namesUnique, by simp, ?_⟩
      intro a ha b hb
      rcases List.mem_singleton.mp hb with rfl
      exact hnamefresh a ha
    · intro ke hke
      obtain ⟨x, hx, hxname⟩ := h.claimOwner ke hke
      exact ⟨x, List.mem_append.mpr (Or.inl hx), hxname⟩
    · intro x hx
      show x.2.score = claimsSumFor g.claims x.2.name
      rcases List.mem_append.mp hx with hx1 | hx1
      · exact h.scoreSum x hx1
      · rcases List.mem_singleton.mp hx1 with rfl
        show (0 : Int) = claimsSumFor g.claims playerName
        refine (claimsSumFor_eq_zero ?_).symm
        intro ke hke hkn
        obtain ⟨x, hx, hxname⟩ := h.claimOwner ke hke
        exact hnamefresh x hx (by rw [hxname, hkn])

theorem inv_joinGame (dict : List (List Char)) (g : Game) (sid playerName : List Char)
    (h : Inv dict g) : Inv dict (joinGame g sid playerName).1 := by
  unfold joinGame
  by_cases h1 : g.status = Status.ended
  · rw [if_pos h1]
    exact h
  · rw [if_neg h1]
    by_cases h2 : MAX_PLAYERS_PER_ROOM ≤ g.players.length
    · rw [if_pos h2]
      exact h
    · rw [if_neg h2]
      by_cases h3 : mapHas g.players sid = true
      · rw [if_pos h3]
        exact h
      · rw [if_neg h3]
        by_cases h4 : g.players.any (fun e =>
            decide (e.2.name.map Char.toLower = playerName.map Char.toLower)
              && e.2.connected) = true
        · rw [if_pos h4]
          exact h
        · rw [if_neg h4]
          show Inv dict (assignHost (rebindOrAdd g sid playerName) sid)
          exact inv_assignHost dict _ sid
            (inv_rebindOrAdd dict g sid playerName (Bool.eq_false_iff.mpr h3)
              (Bool.eq_false_iff.mpr h4) h)

theorem ensureClaimSet_get_self (m : List (List Char × List (List Char))) (k : List Char) :
    mapGet (ensureClaimSet m k) k = some ((mapGet m k).getD []) := by
  unfold ensureClaimSet
  by_cases hh : mapHas m k = true
  · rw [if_pos hh]
    unfold mapHas at hh
    cases hg : mapGet m k with
    | none => rw [hg] at hh; simp at hh
    | some S => rfl
  · rw [if_neg hh]
    rw [mapGet_mapSet_self]
    have hn : mapGet m k = none := by
      unfold mapHas at hh
      cases hg : mapGet m k with
      | none => rfl
      | some S => rw [hg] at hh; simp at hh
    rw [hn]
    rfl

theorem ensureClaimSet_get_ne (m : List (List Char × List (List Char))) (k k' : List Char)
    (hne : k' ≠ k) : mapGet (ensureClaimSet m k) k' = mapGet m k' := by
  unfold ensureClaimSet
  by_cases hh : mapHas m k = true
  · rw [if_pos hh]
  · rw [if_neg hh, mapGet_mapSet_ne hne]

theorem ensureClaimSet_mem {m : List (List Char × List (List Char))} {k : List Char}
    {pw : List Char × List (List Char)} (h : pw ∈ ensureClaimSet m k) :
    pw ∈ m ∨ pw = (k, ([] : List (List Char))) := by
  unfold ensureClaimSet at h
  by_cases hh : mapHas m k = true
  · rw [if_pos hh] at h
    exact Or.inl h
  · rw [if_neg hh] at h
    rw [mapSet_of_not_has (Bool.eq_false_iff.mpr hh)] at h
    rcases List.mem_append.mp h with h1 | h1
    · exact Or.inl h1
    · exact Or.inr (List.mem_singleton.mp h1)

theorem key_not_mem_sides {V : Type} {m : List (List Char × V)}
    {l1 l2 : List (List Char × V)} {k : List Char} {p : V}
    (hdec : m = l1 ++ (k, p) :: l2) (hnd : (m.map Prod.fst).Nodup) :
    k ∉ l1.map Prod.fst ∧ k ∉ l2.map Prod.fst := by
  subst hdec
  rw [List.map_append, List.map_cons, List.nodup_middle, List.nodup_cons] at hnd
  have hh := hnd.1
  rw [List.mem_append] at hh
  exact ⟨fun hm => hh (Or.inl hm), fun hm => hh (Or.inr hm)⟩

theorem scoreSum_after_claim {dict : List (List Char)} {g : Game} (h : Inv dict g)
    {playerId : List Char} {player : PlayerEntry}
    (hget : mapGet g.players playerId = some player)
    (s : Int) (ke : List Char × ClaimEntry) (hkname : ke.2.playerName = player.name)
    (hkscore : ke.2.score = s) :
    ∀ e ∈ mapSet g.players playerId { player with score := player.score + s },
      e.2.score = claimsSumFor (g.claims ++ [ke]) e.2.name := by
  intro e he
  obtain ⟨l1, l2, hdec, hset, hnotin⟩ :=
    mapSet_decomp_of_get { player with score := player.score + s } hget
  have hmemp : (playerId, player) ∈ g.players := mem_of_mapGet_eq_some hget
  have hsides := key_not_mem_sides hdec h.playersNodup
  rw [hset] at he
  rw [claimsSumFor_append, hkname, hkscore]
  have hside : ∀ x ∈ l1 ++ l2, x.2.name ≠ player.name := by
    intro x hx
    have hxmem : x ∈ g.players := by
      rw [hdec]
      rcases List.mem_append.mp hx with h1 | h1
      · exact List.mem_append.mpr (Or.inl h1)
      · exact List.mem_append.mpr (Or.inr (List.mem_cons.mpr (Or.inr h1)))
    have hkey : x.1 ≠ playerId := by
      intro hk
      rcases List.mem_append.mp hx with h1 | h1
      · exact hsides.1 (List.mem_map.mpr ⟨x, h1, hk⟩)
      · exact hsides.2 (List.mem_map.mpr ⟨x, h1, hk⟩)
    exact names_ne_of_pairwise h.namesUnique hxmem hmemp (fun hh => hkey (by rw [hh]))
  rcases List.mem_append.mp he with he1 | he1
  · have hne := hside e (List.mem_append.mpr (Or.inl he1))
    rw [if_neg (fun hh => hne hh.symm)]
    have hold := h.scoreSum e (by
      rw [hdec]
      exact List.mem_append.mpr (Or.inl he1))
    omega
  · rcases List.mem_cons.mp he1 with he2 | he2
    · subst he2
      rw [if_pos rfl]
      show player.score + s = claimsSumFor g.claims player.name + s
      have hold : player.score = claimsSumFor g.claims player.name :=
        h.scoreSum (playerId, player) hmemp
      omega
    · have hne := hside e (List.mem_append.mpr (Or.inr he2))
      rw [if_neg (fun hh => hne hh.symm)]
      have hold := h.scoreSum e (by
        rw [hdec]
        exact List.mem_append.mpr (Or.inr (List.mem_cons.mpr (Or.inr he2))))
      omega

theorem owner_after_claim {dict : List (List Char)} {g : Game} (h : Inv dict g)
    {playerId : List Char} {player : PlayerEntry}
    (hget : mapGet g.players playerId = some player) (v : PlayerEntry)
    (hvname : v.name = player.name)
    (ke : List Char × ClaimEntry) (hkname : ke.2.playerName = player.name) :
    ∀ ke' ∈ g.claims ++ [ke],
      ∃ e ∈ mapSet g.players playerId v, e.2.name = ke'.2.playerName := by
  intro ke' hke'
  obtain ⟨l1, l2, hdec, hset, _⟩ := mapSet_decomp_of_get v hget
  rw [hset]
  rcases List.mem_append.mp hke' with hk1 | hk1
  · obtain ⟨x, hx, hxname⟩ := h.claimOwner ke' hk1
    rw [hdec] at hx
    rcases List.mem_append.mp hx with hx1 | hx1
    · exact ⟨x, List.mem_append.mpr (Or.inl hx1), hxname⟩
    · rcases List.mem_cons.mp hx1 with hx2 | hx2
      · refine ⟨(playerId, v), List.mem_append.mpr (Or.inr (List.mem_cons_self _ _)), ?_⟩
        show v.name = ke'.2.playerName
        rw [hvname, ← hxname, hx2]
      · exact ⟨x, List.mem_append.mpr (Or.inr (List.mem_cons.mpr (Or.inr hx2))), hxname⟩
  · rcases List.mem_singleton.mp hk1 with rfl
    refine ⟨(playerId, v), List.mem_append.mpr (Or.inr (List.mem_cons_self _ _)), ?_⟩
    exact hvname.trans hkname.symm

theorem inv_exclusiveClaim (dict : List (List Char)) (g : Game) (playerId : List Char)
    (player : PlayerEntry) (upperWord : List Char) (elapsed : Nat)
    (hget : mapGet g.players playerId = some player)
    (hmode : g.mode = Mode.exclusive)
    (hfix : normalize upperWord = upperWord)
    (hvalid : validateWord dict upperWord g.letters g.minWordLength = none)
    (h : Inv dict g) : Inv dict (exclusiveClaim g playerId player upperWord elapsed).1 := by
  unfold exclusiveClaim
  by_cases hhas : mapHas g.claims upperWord = true
  · rw [if_pos hhas]
    exact h
  · rw [if_neg hhas]
    have hhas2 : mapHas g.claims upperWord = false := Bool.eq_false_iff.mpr hhas
    have hclaims : mapSet g.claims upperWord
        ⟨playerId, player.name, elapsed, calculateExclusiveScore upperWord, none⟩ =
        g.claims ++ [(upperWord,
          ⟨playerId, player.name, elapsed, calculateExclusiveScore upperWord, none⟩)] :=
      mapSet_of_not_has hhas2
    obtain ⟨l1, l2, hdec, hset, _⟩ := mapSet_decomp_of_get
      { player with score := player.score + calculateExclusiveScore upperWord } hget
    refine ⟨?_, ?_, ?_, h.lettersAlpha, ?_, ?_, ?_, ?_, h.pcWords⟩
    · show ((mapSet g.players playerId _).map Prod.fst).Nodup
      rw [mapSet_keys_of_get hget]
      exact h.playersNodup
    · show (mapSet g.players playerId _).Pairwise _
      rw [hset]
      have hnu : (l1 ++ (playerId, player) :: l2).Pairwise
          (fun a b => a.2.name ≠ b.2.name) := by
        rw [← hdec]
        exact h.namesUnique
      exact namesUnique_replace (p := player) rfl hnu
    · show ((mapSet g.claims upperWord _).map Prod.fst).Nodup
      rw [hclaims, List.map_append, List.nodup_append]
      refine ⟨h.claimsNodup, by simp, ?_⟩
      intro x hx
      simp only [List.map_cons, List.map_nil, List.mem_singleton]
      intro hxs
      subst hxs
      exact (mapHas_false_iff.mp hhas2) hx
    · show ∀ ke' ∈ mapSet g.claims upperWord _, ∃ e ∈ mapSet g.players playerId _,
        e.2.name = ke'.2.playerName
      rw [hclaims]
      exact owner_after_claim h hget
        { player with score := player.score + calculateExclusiveScore upperWord } rfl
        (upperWord,
          ⟨playerId, player.name, elapsed, calculateExclusiveScore upperWord, none⟩) rfl
    · show ∀ e ∈ mapSet g.players playerId _,
        e.2.score = claimsSumFor (mapSet g.claims upperWord _) e.2.name
      rw [hclaims]
      exact scoreSum_after_claim h hget (calculateExclusiveScore upperWord)
        (upperWord,
          ⟨playerId, player.name, elapsed, calculateExclusiveScore upperWord, none⟩) rfl rfl
    · intro _ ke hke
      show ke.2.word = none ∧ normalize ke.1 = ke.1 ∧
        validateWord dict ke.1 g.letters g.minWordLength = none
      rw [hclaims] at hke
      rcases List.mem_append.mp hke with h1 | h1
      · exact h.exclClaims hmode ke h1
      · rcases List.mem_singleton.mp h1 with rfl
        exact ⟨rfl, hfix, hvalid⟩
    · intro hm
      exfalso
      have : g.mode = Mode.freeforall := hm
      rw [hmode] at this
      cases this

theorem ffa_key_fresh {dict : List (List Char)} {g : Game} (h : Inv dict g)
    (hmode : g.mode = Mode.freeforall) {playerId upperWord : List Char}
    (hfix : normalize upperWord = upperWord)
    (hvalid : validateWord dict upperWord g.letters g.minWordLength = none)
    (hnotmem : upperWord ∉ (mapGet g.playerClaims playerId).getD []) :
    mapHas g.claims (upperWord ++ '-' :: playerId) = false := by
  rw [mapHas_false_iff]
  intro hk
  rw [List.mem_map] at hk
  obtain ⟨ke, hke, hkek⟩ := hk
  obtain ⟨w, _, hkey, hwfix, hwvalid, hwmem⟩ := h.ffaClaims hmode ke hke
  have hwh : '-' ∉ w := not_hyphen_of_valid h.lettersAlpha hwfix hwvalid
  have huh : '-' ∉ upperWord := not_hyphen_of_valid h.lettersAlpha hfix hvalid
  have hinj := append_hyphen_inj hwh huh (by rw [← hkey, hkek])
  rw [hinj.1] at hwmem
  rw [hinj.2] at hwmem
  exact hnotmem hwmem

theorem inv_freeForAllClaim (dict : List (List Char)) (g : Game) (playerId : List Char)
    (player : PlayerEntry) (upperWord : List Char) (elapsed : Nat)
    (hget : mapGet g.players playerId = some player)
    (hmode : g.mode = Mode.freeforall)
    (hfix : normalize upperWord = upperWord)
    (hvalid : validateWord dict upperWord g.letters g.minWordLength = none)
    (h : Inv dict g) : Inv dict (freeForAllClaim g playerId player upperWord elapsed).1 := by
  have hpcsGet := ensureClaimSet_get_self g.playerClaims playerId
  have hpcsWords : ∀ pw ∈ ensureClaimSet g.playerClaims playerId, ∀ w ∈ pw.2,
      normalize w = w ∧ validateWord dict w g.letters g.minWordLength = none := by
    intro pw hpw
    rcases ensureClaimSet_mem hpw with h1 | h1
    · exact h.pcWords pw h1
    · subst h1
      intro w hw
      cases hw
  unfold freeForAllClaim
  by_cases hmem : upperWord ∈ (mapGet (ensureClaimSet g.playerClaims playerId) playerId).getD []
  · rw [if_pos hmem]
    by_cases hpc : mapHas g.playerClaims playerId = true
    · have heq : ensureClaimSet g.playerClaims playerId = g.playerClaims := by
        unfold ensureClaimSet
        rw [if_pos hpc]
      show Inv dict { g with playerClaims := ensureClaimSet g.playerClaims playerId }
      rw [heq]
      exact h
    · exfalso
      have hn : mapGet g.playerClaims playerId = none := by
        unfold mapHas at hpc
        cases hg : mapGet g.playerClaims playerId with
        | none => rfl
        | some S => rw [hg] at hpc; simp at hpc
      rw [hpcsGet, hn] at hmem
      simp at hmem
  · rw [if_neg hmem]
    have hnotmem : upperWord ∉ (mapGet g.playerClaims playerId).getD [] := by
      intro hw
      apply hmem
      rw [hpcsGet]
      exact hw
    have hkeyfresh : mapHas g.claims (upperWord ++ '-' :: playerId) = false :=
      ffa_key_fresh h hmode hfix hvalid hnotmem
    have hclaims : mapSet g.claims (upperWord ++ '-' :: playerId)
        ⟨playerId, player.name, elapsed, calculateFreeForAllScore upperWord elapsed,
          some upperWord⟩ =
        g.claims ++ [(upperWord ++ '-' :: playerId,
          ⟨playerId, player.name, elapsed, calculateFreeForAllScore upperWord elapsed,
            some upperWord⟩)] :=
      mapSet_of_not_has hkeyfresh
    obtain ⟨l1, l2, hdec, hset, _⟩ := mapSet_decomp_of_get
      { player with score := player.score + calculateFreeForAllScore upperWord elapsed } hget
    refine ⟨?_, ?_, ?_, h.lettersAlpha, ?_, ?_, ?_, ?_, ?_⟩
    · show ((mapSet g.players playerId _).map Prod.fst).Nodup
      rw [mapSet_keys_of_get hget]
      exact h.playersNodup
    · show (mapSet g.players playerId _).Pairwise _
      rw [hset]
      have hnu : (l1 ++ (playerId, player) :: l2).Pairwise
          (fun a b => a.2.name ≠ b.2.name) := by
        rw [← hdec]
        exact h.namesUnique
      exact namesUnique_replace (p := player) rfl hnu
    · show ((mapSet g.claims _ _).map Prod.fst).Nodup
      rw [hclaims, List.map_append, List.nodup_append]
      refine ⟨h.claimsNodup, by simp, ?_⟩
      intro x hx
      simp only [List.map_cons, List.map_nil, List.mem_singleton]
      intro hxs
      subst hxs
      exact (mapHas_false_iff.mp hkeyfresh) hx
    · show ∀ ke' ∈ mapSet g.claims _ _, ∃ e ∈ mapSet g.players playerId _,
        e.2.name = ke'.2.playerName
      rw [hclaims]
      exact owner_after_claim h hget
        { player with score := player.score + calculateFreeForAllScore upperWord elapsed } rfl
        (upperWord ++ '-' :: playerId,
          ⟨playerId, player.name, elapsed, calculateFreeForAllScore upperWord elapsed,
            some upperWord⟩) rfl
    · show ∀ e ∈ mapSet g.players playerId _,
        e.2.score = claimsSumFor (mapSet g.claims _ _) e.2.name
      rw [hclaims]
      exact scoreSum_after_claim h hget (calculateFreeForAllScore upperWord elapsed)
        (upperWord ++ '-' :: playerId,
          ⟨playerId, player.name, elapsed, calculateFreeForAllScore upperWord elapsed,
            some upperWord⟩) rfl rfl
    · intro hm
      exfalso
      have hmm : g.mode = Mode.exclusive := hm
      rw [hmode] at hmm
      cases hmm
    · intro _ ke hke
      show ∃ w, ke.2.word = some w ∧ ke.1 = w ++ '-' :: ke.2.playerId ∧ normalize w = w ∧
        validateWord dict w g.letters g.minWordLength = none ∧
        w ∈ (mapGet (mapSet (ensureClaimSet g.playerClaims playerId) playerId
          ((mapGet (ensureClaimSet g.playerClaims playerId) playerId).getD []
            ++ [upperWord])) ke.2.playerId).getD []
      rw [hclaims] at hke
      rcases List.mem_append.mp hke with h1 | h1
      · obtain ⟨w, hw, hkey, hwfix, hwvalid, hwmem⟩ := h.ffaClaims hmode ke h1
        refine ⟨w, hw, hkey, hwfix, hwvalid, ?_⟩
        by_cases hpe : ke.2.playerId = playerId
        · rw [hpe, mapGet_mapSet_self]
          rw [hpcsGet]
          simp only [Option.getD_some]
          rw [hpe] at hwmem
          exact List.mem_append.mpr (Or.inl hwmem)
        · rw [mapGet_mapSet_ne hpe, ensureClaimSet_get_ne _ _ _ hpe]
          exact hwmem
      · rcases List.mem_singleton.mp h1 with rfl
        refine ⟨upperWord, rfl, rfl, hfix, hvalid, ?_⟩
        show upperWord ∈ (mapGet (mapSet _ playerId _) playerId).getD []
        rw [mapGet_mapSet_self]
        simp only [Option.getD_some]
        exact List.mem_append.mpr (Or.inr (List.mem_singleton.mpr rfl))
    · intro pw hpw
      show ∀ w ∈ pw.2, normalize w = w ∧
        validateWord dict w g.letters g.minWordLength = none
      obtain ⟨m1, m2, hmdec, hmset, _⟩ := mapSet_decomp_of_get
        ((mapGet (ensureClaimSet g.playerClaims playerId) playerId).getD [] ++ [upperWord])
        hpcsGet
      rw [hmset] at hpw
      rcases List.mem_append.mp hpw with h1 | h1
      · refine hpcsWords pw ?_
        rw [hmdec]
        exact List.mem_append.mpr (Or.inl h1)
      · rcases List.mem_cons.mp h1 with h2 | h2
        · subst h2
          intro w hw
          rw [hpcsGet] at hw
          simp only [Option.getD_some] at hw
          rcases List.mem_append.mp hw with h3 | h3
          · refine hpcsWords (playerId, (mapGet g.playerClaims playerId).getD []) ?_ w h3
            rw [hmdec]
            exact List.mem_append.mpr (Or.inr (List.mem_cons_self _ _))
          · rcases List.mem_singleton.mp h3 with rfl
            exact ⟨hfix, hvalid⟩
        · refine hpcsWords pw ?_
          rw [hmdec]
          exact List.mem_append.mpr (Or.inr (List.mem_cons.mpr (Or.inr h2)))

theorem submitWord_no_player (dict : List (List Char)) (g : Game)
    (playerId word : List Char) (now : Nat)
    (hget : mapGet g.players playerId = none) :
    submitWord dict g playerId word now = (g, SubmitResult.err "Spelet är inte aktivt") := by
  unfold submitWord
  rw [hget]

theorem submitWord_some (dict : List (List Char)) (g : Game) (playerId word : List Char)
    (now : Nat) (player : PlayerEntry)
    (hget : mapGet g.players playerId = some player) :
    submitWord dict g playerId word now =
      (if g.status ≠ Status.playing then (g, SubmitResult.err "Spelet är inte aktivt")
       else
        match validateWord dict (normalize word) g.letters g.minWordLength with
        | some e => (g, SubmitResult.err e)
        | none =>
          if g.mode = Mode.exclusive then
            exclusiveClaim g playerId player (normalize word)
              ((now - g.startTime.getD 0) / 1000)
          else
            freeForAllClaim g playerId player (normalize word)
              ((now - g.startTime.getD 0) / 1000)) := by
  unfold submitWord
  rw [hget]

theorem submitWord_not_playing (dict : List (List Char)) (g : Game)
    (playerId word : List Char) (now : Nat) (player : PlayerEntry)
    (hget : mapGet g.players playerId = some player)
    (hst : g.status ≠ Status.playing) :
    submitWord dict g playerId word now = (g, SubmitResult.err "Spelet är inte aktivt") := by
  rw [submitWord_some dict g playerId word now player hget, if_pos hst]

theorem submitWord_invalid (dict : List (List Char)) (g : Game)
    (playerId word : List Char) (now : Nat) (player : PlayerEntry) (e : String)
    (hget : mapGet g.players playerId = some player)
    (hst : g.status = Status.playing)
    (hval : validateWord dict (normalize word) g.letters g.minWordLength = some e) :
    submitWord dict g playerId word now = (g, SubmitResult.err e) := by
  rw [submitWord_some dict g playerId word now player hget,
    if_neg (by rw [hst]; simp), hval]

theorem submitWord_valid (dict : List (List Char)) (g : Game)
    (playerId word : List Char) (now : Nat) (player : PlayerEntry)
    (hget : mapGet g.players playerId = some player)
    (hst : g.status = Status.playing)
    (hval : validateWord dict (normalize word) g.letters g.minWordLength = none) :
    submitWord dict g playerId word now =
      (if g.mode = Mode.exclusive then
        exclusiveClaim g playerId player (normalize word) ((now - g.startTime.getD 0) / 1000)
       else
        freeForAllClaim g playerId player (normalize word)
          ((now - g.startTime.getD 0) / 1000)) := by
  rw [submitWord_some dict g playerId word now player hget,
    if_neg (by rw [hst]; simp), hval]

theorem inv_submitWord (dict : List (List Char)) (g : Game) (playerId word : List Char)
    (now : Nat) (h : Inv dict g) : Inv dict (submitWord dict g playerId word now).1 := by
  cases hget : mapGet g.players playerId with
  | none =>
    rw [submitWord_no_player dict g playerId word now hget]
    exact h
  | some player =>
    by_cases hst : g.status = Status.playing
    · cases hval : validateWord dict (normalize word) g.letters g.minWordLength with
      | some e =>
        rw [submitWord_invalid dict g playerId word now player e hget hst hval]
        exact h
      | none =>
        rw [submitWord_valid dict g playerId word now player hget hst hval]
        by_cases hm : g.mode = Mode.exclusive
        · rw [if_pos hm]
          exact inv_exclusiveClaim dict g playerId player (normalize word) _
            hget hm (normalize_idem word) hval h
        · rw [if_neg hm]
          have hm2 : g.mode = Mode.freeforall := by
            cases hmm : g.mode
            · rfl
            · exact absurd hmm hm
          exact inv_freeForAllClaim dict g playerId player (normalize word) _
            hget hm2 (normalize_idem word) hval h
    · rw [submitWord_not_playing dict g playerId word now player hget hst]
      exact h

theorem inv_disconnectPlayer (dict : List (List Char)) (g : Game) (sid : List Char)
    (h : Inv dict g) : Inv dict (disconnectPlayer g sid) := by
  unfold disconnectPlayer
  cases hget : mapGet g.players sid with
  | none => exact h
  | some player =>
    exact inv_transferHost dict _ sid (inv_markDisconnected dict g sid hget h)

/-! ### Every reachable state satisfies the invariant -/

theorem reach_inv {dict : List (List Char)} {g : Game} (h : Reach dict g) : Inv dict g := by
  induction h with
  | create options coin pick => exact inv_createGame dict options coin pick
  | join sid playerName _ ih => exact inv_joinGame dict _ sid playerName ih
  | start sid now _ ih => exact inv_startGame dict _ sid now ih
  | submit playerId word now _ ih => exact inv_submitWord dict _ playerId word now ih
  | disconnect sid _ ih => exact inv_disconnectPlayer dict _ sid ih
  | timerEnd _ _ ih => exact inv_endGame dict _ ih

/-! ### Step lemmas for the handlers -/

theorem disconnectPlayer_some (g : Game) (sid : List Char) (player : PlayerEntry)
    (hget : mapGet g.players sid = some player) :
    disconnectPlayer g sid = transferHost
      { g with players := mapSet g.players sid { player with connected := false } } sid := by
  unfold disconnectPlayer
  rw [hget]

theorem transferHost_found (g : Game) (sid : List Char) (e : List Char × PlayerEntry)
    (hhost : g.hostId = some sid)
    (hf : g.players.find? (fun x => x.2.connected) = some e) :
    transferHost g sid = { g with hostId := some e.1 } := by
  unfold transferHost
  rw [if_pos hhost, hf]

theorem transferHost_none (g : Game) (sid : List Char)
    (hhost : g.hostId = some sid)
    (hf : g.players.find? (fun x => x.2.connected) = none) :
    transferHost g sid = g := by
  unfold transferHost
  rw [if_pos hhost, hf]

theorem assignHost_players (g : Game) (sid : List Char) :
    (assignHost g sid).players = g.players := by
  unfold assignHost
  by_cases h : g.hostId = none
  · rw [if_pos h]
  · rw [if_neg h]

theorem rebindOrAdd_reconnect (g : Game) (sid playerName : List Char)
    (e : List Char × PlayerEntry)
    (hf : g.players.find? (fun x => decide (x.2.name = playerName) && !x.2.connected)
      = some e) :
    rebindOrAdd g sid playerName =
      { g with players :=
          mapDelete g.players e.1 ++ [(sid, { e.2 with connected := true })] } := by
  unfold rebindOrAdd
  rw [hf]

theorem rebindOrAdd_new (g : Game) (sid playerName : List Char)
    (hf : g.players.find? (fun x => decide (x.2.name = playerName) && !x.2.connected)
      = none) :
    rebindOrAdd g sid playerName =
      { g with players := g.players ++ [(sid, ⟨playerName, 0, true⟩)] } := by
  unfold rebindOrAdd
  rw [hf]

theorem joinGame_proceed (g : Game) (sid playerName : List Char)
    (h1 : g.status ≠ Status.ended)
    (h2 : g.players.length < MAX_PLAYERS_PER_ROOM)
    (h3 : mapHas g.players sid = false)
    (h4 : g.players.any (fun e =>
      decide (e.2.name.map Char.toLower = playerName.map Char.toLower) && e.2.connected)
        = false) :
    joinGame g sid playerName =
      (assignHost (rebindOrAdd g sid playerName) sid,
        JoinResult.ok (decide ((assignHost (rebindOrAdd g sid playerName) sid).hostId
          = some sid))) := by
  unfold joinGame
  rw [if_neg h1, if_neg (Nat.not_le.mpr h2), if_neg (by rw [h3]; exact Bool.false_ne_true),
    if_neg (by rw [h4]; exact Bool.false_ne_true)]

/-! ### Reachability of the concrete runs -/

theorem reach_exA3 : Reach exDict exA3 :=
  Reach.submit ['s', '1'] ['A', 'N', 'N'] 10000
    (Reach.start ['s', '1'] 0
      (Reach.join ['s', '1'] ['A', 'l', 'v', 'a']
        (Reach.create exOptsF exCoin exPick)))

theorem reach_exA5 : Reach exDict exA5 :=
  Reach.join ['s', '2'] ['A', 'l', 'v', 'a'] (Reach.disconnect ['s', '1'] reach_exA3)

theorem reach_exB4 : Reach exDict exB4 :=
  Reach.submit ['s', '1'] ['A', 'N', 'N'] 10000
    (Reach.start ['s', '1'] 0
      (Reach.join ['s', '2'] ['B', 'o', 'b']
        (Reach.join ['s', '1'] ['A', 'l', 'v', 'a']
          (Reach.create exOptsE exCoin exPick))))

theorem reach_exC4 : Reach exDict exC4 :=
  Reach.submit ['s', '1'] ['A', 'N', 'N'] 10000
    (Reach.start ['s', '1'] 0
      (Reach.join ['s', '2'] ['B', 'o', 'b']
        (Reach.join ['s', '1'] ['A', 'l', 'v', 'a']
          (Reach.create exOptsF exCoin exPick))))

theorem reach_exC5 : Reach exDict exC5 :=
  Reach.submit ['s', '2'] ['A', 'N', 'N'] 20000 reach_exC4

/-! ### Step lemmas for the mode branches -/

theorem exclusiveClaim_taken (g : Game) (playerId : List Char) (player : PlayerEntry)
    (upperWord : List Char) (elapsed : Nat)
    (hhas : mapHas g.claims upperWord = true) :
    exclusiveClaim g playerId player upperWord elapsed =
      (g, SubmitResult.err "Ordet är redan taget!") := by
  unfold exclusiveClaim
  rw [if_pos hhas]

theorem freeForAllClaim_dup (g : Game) (playerId : List Char) (player : PlayerEntry)
    (upperWord : List Char) (elapsed : Nat)
    (hdup : upperWord ∈
      (mapGet (ensureClaimSet g.playerClaims playerId) playerId).getD []) :
    freeForAllClaim g playerId player upperWord elapsed =
      ({ g with playerClaims := ensureClaimSet g.playerClaims playerId },
        SubmitResult.err "Du har redan använt detta ord!") := by
  unfold freeForAllClaim
  rw [if_pos hdup]

theorem freeForAllClaim_accept (g : Game) (playerId : List Char) (player : PlayerEntry)
    (upperWord : List Char) (elapsed : Nat)
    (hnm : upperWord ∉
      (mapGet (ensureClaimSet g.playerClaims playerId) playerId).getD []) :
    freeForAllClaim g playerId player upperWord elapsed =
      ({ g with
          playerClaims := mapSet (ensureClaimSet g.playerClaims playerId) playerId
            ((mapGet (ensureClaimSet g.playerClaims playerId) playerId).getD []
              ++ [upperWord])
          claims := mapSet g.claims (upperWord ++ '-' :: playerId)
            ⟨playerId, player.name, elapsed, calculateFreeForAllScore upperWord elapsed,
              some upperWord⟩
          players := mapSet g.players playerId
            { player with score := player.score + calculateFreeForAllScore upperWord elapsed } },
        SubmitResult.ok upperWord (calculateFreeForAllScore upperWord elapsed)
          (player.score + calculateFreeForAllScore upperWord elapsed)) := by
  unfold freeForAllClaim
  rw [if_neg hnm]

/-! ### Claim C8: precondition order and specific rejection reasons -/

/-- C8: word submission checks its preconditions in order, short-circuiting:
a missing player or a non-`Playing` status yields the round-not-active
error (before any validation), then a validation failure surfaces its
specific reason; validation itself checks empty / too-short / unformable /
not-a-word in order; and a host starting a session whose status is not
`Waiting` gets the already-started error. -/
theorem C8_precondition_order :
    (∀ (dict : List (List Char)) (g : Game) (p w : List Char) (now : Nat),
      mapGet g.players p = none ∨ g.status ≠ Status.playing →
      submitWord dict g p w now = (g, SubmitResult.err "Spelet är inte aktivt")) ∧
    (∀ (dict : List (List Char)) (g : Game) (p w : List Char) (now : Nat)
        (player : PlayerEntry) (e : String),
      mapGet g.players p = some player → g.status = Status.playing →
      validateWord dict (normalize w) g.letters g.minWordLength = some e →
      submitWord dict g p w now = (g, SubmitResult.err e)) ∧
    (∀ (dict : List (List Char)) (w letters : List Char) (m : Nat),
      (normalize w = [] → validateWord dict w letters m = some "Tomt ord") ∧
      (normalize w ≠ [] → (normalize w).length < m →
        validateWord dict w letters m =
          some ("Ordet måste vara minst " ++ toString m ++ " bokstäver")) ∧
      (normalize w ≠ [] → m ≤ (normalize w).length →
        canFormWord (normalize w) letters = false →
        validateWord dict w letters m = some "Ogiltiga bokstäver") ∧
      (normalize w ≠ [] → m ≤ (normalize w).length →
        canFormWord (normalize w) letters = true →
        isValidSwedishWord dict (normalize w) = false →
        validateWord dict w letters m = some "Inte ett giltigt svenskt ord")) ∧
    (∀ (g : Game) (sid : List Char) (now : Nat),
      g.hostId = some sid → g.status ≠ Status.waiting →
      startGame g sid now = (g, StartResult.err "Spelet har redan startat")) := by
  refine ⟨?_, ?_, ?_, ?_⟩
  · intro dict g p w now hpre
    rcases hpre with hnone | hst
    · exact submitWord_no_player dict g p w now hnone
    · cases hget : mapGet g.players p with
      | none => exact submitWord_no_player dict g p w now hget
      | some player => exact submitWord_not_playing dict g p w now player hget hst
  · intro dict g p w now player e hget hst hval
    exact submitWord_invalid dict g p w now player e hget hst hval
  · intro dict w letters m
    refine ⟨?_, ?_, ?_, ?_⟩
    · intro h1
      unfold validateWord
      rw [if_pos (show (normalize w).isEmpty = true by rw [h1]; rfl)]
    · intro h1 h2
      unfold validateWord
      rw [if_neg (fun hc => h1 (List.isEmpty_iff.mp hc)), if_pos h2]
    · intro h1 h2 h3
      unfold validateWord
      rw [if_neg (fun hc => h1 (List.isEmpty_iff.mp hc)),
        if_neg (Nat.not_lt.mpr h2), if_pos h3]
    · intro h1 h2 h3 h4
      unfold validateWord
      rw [if_neg (fun hc => h1 (List.isEmpty_iff.mp hc)),
        if_neg (Nat.not_lt.mpr h2), if_neg (by simp [h3]), if_pos h4]
  · intro g sid now hhost hst
    unfold startGame
    rw [if_neg (fun hc => hc hhost), if_pos hst]

/-- Witness for C8: the already-started rejection at the concrete exclusive
run whose round is playing. -/
theorem C8_precondition_order_witness :
    startGame exB4 ['s', '1'] 99000 = (exB4, StartResult.err "Spelet har redan startat") :=
  C8_precondition_order.2.2.2 exB4 ['s', '1'] 99000 (by decide) (by decide)

/-! ### Claim C10: join rejection conditions -/

/-- C10: a join request is rejected only for an unknown session id, an
ended session, a full player table (20 entries, disconnected players
included), or a display name held case-insensitively by a connected
player; joining a session in `Playing` status otherwise succeeds, and a
genuinely new player is appended with score 0. -/
theorem C10_join_rejections :
    (∀ (sid name : List Char),
      handleJoin none sid name = (none, JoinResult.err "Spelet hittades inte")) ∧
    (∀ (g : Game) (sid name : List Char) (e : String),
      (joinGame g sid name).2 = JoinResult.err e →
      g.status = Status.ended ∨ MAX_PLAYERS_PER_ROOM ≤ g.players.length ∨
        (mapHas g.players sid = false ∧
          g.players.any (fun x =>
            decide (x.2.name.map Char.toLower = name.map Char.toLower) && x.2.connected)
              = true)) ∧
    (∀ (g : Game) (sid name : List Char),
      g.status = Status.playing → g.players.length < MAX_PLAYERS_PER_ROOM →
      mapHas g.players sid = false →
      g.players.any (fun x =>
        decide (x.2.name.map Char.toLower = name.map Char.toLower) && x.2.connected)
          = false →
      g.players.find? (fun x => decide (x.2.name = name) && !x.2.connected) = none →
      (∃ b, (joinGame g sid name).2 = JoinResult.ok b) ∧
      (joinGame g sid name).1.players =
        g.players ++ [(sid, ⟨name, 0, true⟩)]) := by
  refine ⟨fun sid name => rfl, ?_, ?_⟩
  · intro g sid name e herr
    unfold joinGame at herr
    by_cases h1 : g.status = Status.ended
    · exact Or.inl h1
    · rw [if_neg h1] at herr
      by_cases h2 : MAX_PLAYERS_PER_ROOM ≤ g.players.length
      · exact Or.inr (Or.inl h2)
      · rw [if_neg (fun hc => h2 hc)] at herr
        by_cases h3 : mapHas g.players sid = true
        · rw [if_pos h3] at herr
          cases herr
        · rw [if_neg h3] at herr
          by_cases h4 : g.players.any (fun x =>
              decide (x.2.name.map Char.toLower = name.map Char.toLower)
                && x.2.connected) = true
          · exact Or.inr (Or.inr ⟨Bool.eq_false_iff.mpr h3, h4⟩)
          · rw [if_neg h4] at herr
            cases herr
  · intro g sid name hst h2 h3 h4 hf
    have hne : g.status ≠ Status.ended := by
      rw [hst]
      intro hc
      cases hc
    rw [joinGame_proceed g sid name hne h2 h3 h4]
    refine ⟨⟨_, rfl⟩, ?_⟩
    show (assignHost (rebindOrAdd g sid name) sid).players = _
    rw [assignHost_players, rebindOrAdd_new g sid name hf]

/-- Witness for C10: a fresh player "Eva" joins the free-for-all run in
mid-round (status `Playing`) and is appended with score 0. -/
theorem C10_join_rejections_witness :
    (∃ b, (joinGame exC4 ['s', '3'] ['E', 'v', 'a']).2 = JoinResult.ok b) ∧
    (joinGame exC4 ['s', '3'] ['E', 'v', 'a']).1.players =
      exC4.players ++ [(['s', '3'], ⟨['E', 'v', 'a'], 0, true⟩)] :=
  C10_join_rejections.2.2 exC4 ['s', '3'] ['E', 'v', 'a'] (by decide) (by decide)
    (by decide) (by decide) (by decide)

/-! ### Claim C3 (corrected): reconnection -/

/-- C3 counterexample: "Alva" claims "ANN", disconnects, and rejoins as
socket `s2` while nobody connected holds her name.  She is rebound with her
prior score 150, but resubmitting the very word she already claimed is
ACCEPTED again (with a fresh score), not rejected as already-used: the
free-for-all per-player claim set is keyed by the stale transport id. -/
theorem C3_reconnection_counterexample :
    Reach exDict exA5 ∧
    mapGet exA5.players ['s', '2'] = some ⟨['A', 'l', 'v', 'a'], 150, true⟩ ∧
    (submitWord exDict exA5 ['s', '2'] ['A', 'N', 'N'] 10000).2 =
      SubmitResult.ok ['A', 'N', 'N'] 150 300 :=
  ⟨reach_exA5, by decide, by decide⟩

/-- C3 (amended): a join with a name held case-insensitively by a
connected player is rejected with the name-taken error; a join matching a
disconnected player's exact name rebinds that player's entry (score and
name intact) to the new socket id, moving it to the end of the table —
but the free-for-all claim history, keyed by the old transport id, is not
rebound. -/
theorem C3_reconnection_amended :
    (∀ (g : Game) (sid name : List Char),
      g.status ≠ Status.ended → g.players.length < MAX_PLAYERS_PER_ROOM →
      mapHas g.players sid = false →
      g.players.any (fun x =>
        decide (x.2.name.map Char.toLower = name.map Char.toLower) && x.2.connected)
          = true →
      joinGame g sid name = (g, JoinResult.err "Namnet är redan taget")) ∧
    (∀ (g : Game) (sid name : List Char) (e : List Char × PlayerEntry),
      g.status ≠ Status.ended → g.players.length < MAX_PLAYERS_PER_ROOM →
      mapHas g.players sid = false →
      g.players.any (fun x =>
        decide (x.2.name.map Char.toLower = name.map Char.toLower) && x.2.connected)
          = false →
      g.players.find? (fun x => decide (x.2.name = name) && !x.2.connected) = some e →
      (∃ b, (joinGame g sid name).2 = JoinResult.ok b) ∧
      (joinGame g sid name).1.players =
        mapDelete g.players e.1 ++ [(sid, { e.2 with connected := true })]) := by
  constructor
  · intro g sid name h1 h2 h3 h4
    unfold joinGame
    rw [if_neg h1, if_neg (Nat.not_le.mpr h2),
      if_neg (by rw [h3]; exact Bool.false_ne_true), if_pos h4]
  · intro g sid name e h1 h2 h3 h4 hf
    rw [joinGame_proceed g sid name h1 h2 h3 h4]
    refine ⟨⟨_, rfl⟩, ?_⟩
    show (assignHost (rebindOrAdd g sid name) sid).players = _
    rw [assignHost_players, rebindOrAdd_reconnect g sid name e hf]

/-- Witness for C3: the reconnect clause applied to the concrete run —
"Alva"'s entry (score 150) is rebound from socket `s1` to `s2`. -/
theorem C3_reconnection_amended_witness :
    (∃ b, (joinGame exA4 ['s', '2'] ['A', 'l', 'v', 'a']).2 = JoinResult.ok b) ∧
    (joinGame exA4 ['s', '2'] ['A', 'l', 'v', 'a']).1.players =
      mapDelete exA4.players ['s', '1'] ++
        [(['s', '2'], ⟨['A', 'l', 'v', 'a'], 150, true⟩)] :=
  C3_reconnection_amended.2 exA4 ['s', '2'] ['A', 'l', 'v', 'a']
    (['s', '1'], ⟨['A', 'l', 'v', 'a'], 150, false⟩)
    (by decide) (by decide) (by decide) (by decide) (by decide)

/-! ### Claim C4 (corrected): host transfer -/

/-- C4 counterexample: the sole player (and host) disconnects; the claim
says the host becomes unset, but the host id remains bound to the
disconnected socket `s1` while no player is connected. -/
theorem C4_host_transfer_counterexample :
    Reach exDict exD2 ∧ exD2.hostId = some ['s', '1'] ∧
    (∀ e ∈ exD2.players, e.2.connected = false) := by
  refine ⟨?_, by decide, by decide⟩
  exact Reach.disconnect ['s', '1']
    (Reach.join ['s', '1'] ['A', 'l', 'v', 'a'] (Reach.create exOptsF exCoin exPick))

/-- C4 (amended): when the host disconnects, the host id is reassigned to
the first player in the table's current insertion order whose connected
flag is true (after the departing player is marked disconnected); if no
connected player remains, the host id stays bound to the disconnected
host rather than becoming unset. -/
theorem C4_host_transfer_amended :
    (∀ (g : Game) (sid : List Char) (player : PlayerEntry)
        (e : List Char × PlayerEntry),
      mapGet g.players sid = some player → g.hostId = some sid →
      (mapSet g.players sid { player with connected := false }).find?
          (fun x => x.2.connected) = some e →
      (disconnectPlayer g sid).hostId = some e.1) ∧
    (∀ (g : Game) (sid : List Char) (player : PlayerEntry),
      mapGet g.players sid = some player → g.hostId = some sid →
      (mapSet g.players sid { player with connected := false }).find?
          (fun x => x.2.connected) = none →
      (disconnectPlayer g sid).hostId = some sid) := by
  constructor
  · intro g sid player e hget hhost hf
    rw [disconnectPlayer_some g sid player hget,
      transferHost_found
        { g with players := mapSet g.players sid { player with connected := false } }
        sid e hhost hf]
  · intro g sid player hget hhost hf
    rw [disconnectPlayer_some g sid player hget,
      transferHost_none
        { g with players := mapSet g.players sid { player with connected := false } }
        sid hhost hf]
    exact hhost

/-- Witness for C4: the spec's P1/P2/P3 scenario with P2 disconnected —
when host P1 leaves, P3 (the first connected player in order) becomes
host. -/
theorem C4_host_transfer_amended_witness :
    (disconnectPlayer exE4 ['s', '1']).hostId = some ['s', '3'] :=
  C4_host_transfer_amended.1 exE4 ['s', '1'] ⟨['P', '1'], 0, true⟩
    (['s', '3'], ⟨['P', '3'], 0, true⟩) (by decide) (by decide) (by decide)

/-! ### Claim C1: the exclusive ledger -/

/-- C1: in `Exclusive` mode, every reachable session state has at most one
ledger entry per distinct normalized word (the ledger keys are pairwise
distinct), and submitting a word whose normalization is already in the
ledger — by any player, during play — is rejected with the
already-claimed reason, leaving the state (ledger and all scores)
unchanged. -/
theorem C1_exclusive_ledger (dict : List (List Char)) (g : Game) (hre : Reach dict g)
    (hmode : g.mode = Mode.exclusive) :
    g.claims.Pairwise (fun a b => a.1 ≠ b.1) ∧
    (∀ (p w : List Char) (now : Nat) (player : PlayerEntry),
      mapGet g.players p = some player → g.status = Status.playing →
      mapHas g.claims (normalize w) = true →
      submitWord dict g p w now = (g, SubmitResult.err "Ordet är redan taget!")) := by
  have hinv := reach_inv hre
  constructor
  · exact List.pairwise_map.mp hinv.claimsNodup
  · intro p w now player hget hst hhas
    have hkey : ∃ ke ∈ g.claims, ke.1 = normalize w := by
      have hh := mapHas_true_iff.mp hhas
      rw [List.mem_map] at hh
      obtain ⟨ke, hke, hk⟩ := hh
      exact ⟨ke, hke, hk⟩
    obtain ⟨ke, hke, hk⟩ := hkey
    have hvalid := (hinv.exclClaims hmode ke hke).2.2
    rw [hk] at hvalid
    rw [submitWord_valid dict g p w now player hget hst hvalid, if_pos hmode]
    exact exclusiveClaim_taken g p player (normalize w) _ hhas

/-- Witness for C1: in the concrete exclusive run where Alva already holds
"ANN", Bob's submission of the same word is rejected with the
already-claimed error and the state is unchanged. -/
theorem C1_exclusive_ledger_witness :
    submitWord exDict exB4 ['s', '2'] ['A', 'N', 'N'] 12000 =
      (exB4, SubmitResult.err "Ordet är redan taget!") :=
  (C1_exclusive_ledger exDict exB4 reach_exB4 (by decide)).2 ['s', '2'] ['A', 'N', 'N']
    12000 ⟨['B', 'o', 'b'], 0, true⟩ (by decide) (by decide) (by decide)

/-! ### Claim C5 (corrected): score bookkeeping -/

/-- C5 counterexample: after "Alva" reconnects under the new socket id
`s2`, the reachable state has her player entry with cumulative score 150
while the sum of ledger scores carrying her current transport id `s2` is
0 — the ledger entries still carry the stale id `s1`. -/
theorem C5_score_sum_counterexample :
    Reach exDict exA5 ∧
    mapGet exA5.players ['s', '2'] = some ⟨['A', 'l', 'v', 'a'], 150, true⟩ ∧
    claimsSumForId exA5.claims ['s', '2'] = 0 :=
  ⟨reach_exA5, by decide, by decide⟩

/-- C5 (amended): in every reachable state, a player's cumulative score
equals the sum of the awarded scores of the ledger entries bearing that
player's display name (the stable identity); matching entries by
transport id instead can fail after a reconnection. -/
theorem C5_score_sum_amended (dict : List (List Char)) (g : Game) (hre : Reach dict g) :
    ∀ e ∈ g.players, e.2.score = claimsSumFor g.claims e.2.name :=
  (reach_inv hre).scoreSum

/-- Witness for C5: in the concrete run, Alva's entry (score 150) matches
the ledger sum credited to her name. -/
theorem C5_score_sum_amended_witness :
    ((['s', '1'], (⟨['A', 'l', 'v', 'a'], 150, true⟩ : PlayerEntry)) ∈ exA3.players) ∧
    (⟨['A', 'l', 'v', 'a'], 150, true⟩ : PlayerEntry).score =
      claimsSumFor exA3.claims ['A', 'l', 'v', 'a'] := by
  refine ⟨by decide, ?_⟩
  exact C5_score_sum_amended exDict exA3 reach_exA3
    (['s', '1'], ⟨['A', 'l', 'v', 'a'], 150, true⟩) (by decide)

/-! ### Claim C7: the free-for-all ledger -/

/-- C7: in `FreeForAll` mode, every reachable ledger has no two entries
with the same (word, player id) pair; a player resubmitting a word they
already claimed is rejected with the already-used-by-you reason; and a
valid word not yet claimed by the submitting player is accepted with a
score computed from that player's own elapsed time, the ledger gaining
exactly that entry. -/
theorem C7_freeforall_ledger (dict : List (List Char)) (g : Game) (hre : Reach dict g)
    (hmode : g.mode = Mode.freeforall) :
    g.claims.Pairwise (fun a b =>
      ¬ (a.2.word = b.2.word ∧ a.2.playerId = b.2.playerId)) ∧
    (∀ (p w : List Char) (now : Nat) (player : PlayerEntry),
      mapGet g.players p = some player → g.status = Status.playing →
      normalize w ∈ (mapGet g.playerClaims p).getD [] →
      submitWord dict g p w now = (g, SubmitResult.err "Du har redan använt detta ord!")) ∧
    (∀ (p w : List Char) (now : Nat) (player : PlayerEntry),
      mapGet g.players p = some player → g.status = Status.playing →
      validateWord dict (normalize w) g.letters g.minWordLength = none →
      normalize w ∉ (mapGet g.playerClaims p).getD [] →
      (submitWord dict g p w now).2 =
        SubmitResult.ok (normalize w)
          (calculateFreeForAllScore (normalize w) ((now - g.startTime.getD 0) / 1000))
          (player.score +
            calculateFreeForAllScore (normalize w) ((now - g.startTime.getD 0) / 1000)) ∧
      (submitWord dict g p w now).1.claims =
        g.claims ++ [(normalize w ++ '-' :: p,
          ⟨p, player.name, (now - g.startTime.getD 0) / 1000,
            calculateFreeForAllScore (normalize w) ((now - g.startTime.getD 0) / 1000),
            some (normalize w)⟩)]) := by
  have hinv := reach_inv hre
  refine ⟨?_, ?_, ?_⟩
  · have hkeys : g.claims.Pairwise (fun a b => a.1 ≠ b.1) :=
      List.pairwise_map.mp hinv.claimsNodup
    refine List.Pairwise.imp_of_mem ?_ hkeys
    intro a b ha hb hne hcon
    obtain ⟨wa, hwa, hka, _, _, _⟩ := hinv.ffaClaims hmode a ha
    obtain ⟨wb, hwb, hkb, _, _, _⟩ := hinv.ffaClaims hmode b hb
    apply hne
    rw [hka, hkb]
    have hww : wa = wb := by
      have hcc := hcon.1
      rw [hwa, hwb] at hcc
      exact Option.some.inj hcc
    rw [hww, hcon.2]
  · intro p w now player hget hst hdup
    obtain ⟨S, hS⟩ : ∃ S, mapGet g.playerClaims p = some S := by
      cases hg : mapGet g.playerClaims p with
      | none => rw [hg] at hdup; cases hdup
      | some S => exact ⟨S, rfl⟩
    have hmemS : normalize w ∈ S := by
      rw [hS] at hdup
      exact hdup
    have hpw := hinv.pcWords (p, S) (mem_of_mapGet_eq_some hS) (normalize w) hmemS
    rw [submitWord_valid dict g p w now player hget hst hpw.2,
      if_neg (by rw [hmode]; intro hc; cases hc)]
    have hhas : mapHas g.playerClaims p = true := by
      unfold mapHas
      rw [hS]
      rfl
    have hens : ensureClaimSet g.playerClaims p = g.playerClaims := by
      unfold ensureClaimSet
      rw [if_pos hhas]
    rw [freeForAllClaim_dup g p player (normalize w) _
      (by rw [hens, hS]; exact hmemS)]
    rw [hens]
  · intro p w now player hget hst hval hnm
    rw [submitWord_valid dict g p w now player hget hst hval,
      if_neg (by rw [hmode]; intro hc; cases hc)]
    have hnm2 : normalize w ∉
        (mapGet (ensureClaimSet g.playerClaims p) p).getD [] := by
      rw [ensureClaimSet_get_self]
      simpa using hnm
    rw [freeForAllClaim_accept g p player (normalize w) _ hnm2]
    refine ⟨rfl, ?_⟩
    show mapSet g.claims _ _ = _
    rw [mapSet_of_not_has (ffa_key_fresh hinv hmode (normalize_idem w) hval hnm)]

/-- Witness for C7: Bob claims "ANN" twenty seconds in, although Alva
already claimed it — the submission succeeds with Bob's own time-based
score `3 * (60 - 20) = 120`. -/
theorem C7_freeforall_ledger_witness :
    (submitWord exDict exC4 ['s', '2'] ['A', 'N', 'N'] 20000).2 =
      SubmitResult.ok ['A', 'N', 'N'] 120 120 := by
  have h := (C7_freeforall_ledger exDict exC4 reach_exC4 (by decide)).2.2
    ['s', '2'] ['A', 'N', 'N'] 20000 ⟨['B', 'o', 'b'], 0, true⟩
    (by decide) (by decide) (by decide) (by decide)
  rw [h.1]
  decide

/-! ### Claim C9: the possible-words enumeration -/

theorem possibleCmp_le_total (sv : List Char → List Char → Int)
    (htotal : ∀ a b, sv a b ≤ 0 ∨ sv b a ≤ 0) (a b : List Char) :
    possibleCmp sv a b ≤ 0 ∨ possibleCmp sv b a ≤ 0 := by
  unfold possibleCmp
  by_cases h1 : (b.length : Int) - (a.length : Int) = 0
  · have h2 : (a.length : Int) - (b.length : Int) = 0 := by omega
    rw [if_pos h1, if_pos h2]
    exact htotal a b
  · have h2 : ¬ ((a.length : Int) - (b.length : Int) = 0) := by omega
    rw [if_neg h1, if_neg h2]
    omega

theorem possibleCmp_le_trans (sv : List Char → List Char → Int)
    (htrans : ∀ a b c, sv a b ≤ 0 → sv b c ≤ 0 → sv a c ≤ 0)
    (a b c : List Char) (h1 : possibleCmp sv a b ≤ 0) (h2 : possibleCmp sv b c ≤ 0) :
    possibleCmp sv a c ≤ 0 := by
  unfold possibleCmp at h1 h2 ⊢
  by_cases hab : (b.length : Int) - (a.length : Int) = 0
  · rw [if_pos hab] at h1
    by_cases hbc : (c.length : Int) - (b.length : Int) = 0
    · rw [if_pos hbc] at h2
      rw [if_pos (by omega)]
      exact htrans a b c h1 h2
    · rw [if_neg hbc] at h2
      rw [if_neg (by omega)]
      omega
  · rw [if_neg hab] at h1
    by_cases hbc : (c.length : Int) - (b.length : Int) = 0
    · rw [if_pos hbc] at h2
      rw [if_neg (by omega)]
      omega
    · rw [if_neg hbc] at h2
      rw [if_neg (by omega)]
      omega

/-- C9: the enumeration returns exactly the dictionary words of length at
least the minimum that pass multiset containment against the bag, sorted
by length descending with ties by the locale comparator (any total,
transitive collation such as the Swedish one); consequently every word
recorded in a reachable session's ledger appears in the output for that
session's bag and minimum length. -/
theorem C9_possible_words (dict : List (List Char)) (sv : List Char → List Char → Int)
    (letters : List Char) (minLength : Nat)
    (htotal : ∀ a b, sv a b ≤ 0 ∨ sv b a ≤ 0)
    (htrans : ∀ a b c, sv a b ≤ 0 → sv b c ≤ 0 → sv a c ≤ 0) :
    (∀ w, w ∈ findPossibleWords dict sv letters minLength ↔
      (w ∈ dict ∧ minLength ≤ w.length ∧ canFormWord w letters = true)) ∧
    (findPossibleWords dict sv letters minLength).Pairwise
      (fun a b => possibleCmp sv a b ≤ 0) ∧
    (∀ g : Game, Reach dict g → g.letters = letters → g.minWordLength = minLength →
      ∀ ke ∈ g.claims, claimWord ke ∈ findPossibleWords dict sv letters minLength) := by
  have hperm : (findPossibleWords dict sv letters minLength).Perm
      (dict.filter (fun word => decide (minLength ≤ word.length)
        && canFormWord word letters)) := by
    unfold findPossibleWords
    exact List.mergeSort_perm _ _
  have hmem : ∀ w, w ∈ findPossibleWords dict sv letters minLength ↔
      (w ∈ dict ∧ minLength ≤ w.length ∧ canFormWord w letters = true) := by
    intro w
    rw [hperm.mem_iff, List.mem_filter]
    constructor
    · rintro ⟨h1, h2⟩
      simp only [Bool.and_eq_true, decide_eq_true_eq] at h2
      exact ⟨h1, h2.1, h2.2⟩
    · rintro ⟨h1, h2, h3⟩
      refine ⟨h1, ?_⟩
      simp [h2, h3]
  refine ⟨hmem, ?_, ?_⟩
  · unfold findPossibleWords
    have hs := @List.sorted_mergeSort (List Char)
      (fun a b : List Char => decide (possibleCmp sv a b ≤ 0))
      (fun a b c hab hbc => decide_eq_true
        (possibleCmp_le_trans sv htrans a b c
          (of_decide_eq_true hab) (of_decide_eq_true hbc)))
      (fun a b => by
        rcases possibleCmp_le_total sv htotal a b with hc | hc <;> simp [hc])
      (dict.filter (fun word => decide (minLength ≤ word.length)
        && canFormWord word letters))
    exact hs.imp (fun hab => of_decide_eq_true hab)
  · intro g hre hlet hmin ke hke
    have hinv := reach_inv hre
    cases hgm : g.mode with
    | freeforall =>
      obtain ⟨w, hword, _, hfix, hval, _⟩ := hinv.ffaClaims hgm ke hke
      have hcw : claimWord ke = w := by
        unfold claimWord
        rw [hword]
        rfl
      rw [hcw, hmem]
      rw [hlet, hmin] at hval
      have hfacts := validateWord_facts hfix hval
      exact ⟨mem_dict_of_validateWord hfix hval, hfacts.2.1, hfacts.2.2⟩
    | exclusive =>
      obtain ⟨hword, hfix, hval⟩ := hinv.exclClaims hgm ke hke
      have hcw : claimWord ke = ke.1 := by
        unfold claimWord
        rw [hword]
        rfl
      rw [hcw, hmem]
      rw [hlet, hmin] at hval
      have hfacts := validateWord_facts hfix hval
      exact ⟨mem_dict_of_validateWord hfix hval, hfacts.2.1, hfacts.2.2⟩

/-- Witness for C9: with the trivial (constant-zero, hence total and
transitive) collation, the claimed word "ANN" of the concrete run appears
in the enumeration for its bag and minimum length. -/
theorem C9_possible_words_witness :
    ['A', 'N', 'N'] ∈ findPossibleWords exDict (fun _ _ => 0) ['N', 'N', 'N', 'A'] 3 := by
  have h := (C9_possible_words exDict (fun _ _ => 0) ['N', 'N', 'N', 'A'] 3
    (fun a b => Or.inl (by norm_num))
    (fun a b c h1 h2 => by norm_num)).1 ['A', 'N', 'N']
  exact h.mpr ⟨by decide, by decide, by decide⟩

end WrdHntr
